import Mathlib

/-!
Verification development for the playwright-agent repository.

This file gives a shallow embedding, in Lean 4, of the parts of the
repository that the verified properties talk about:

* the agent loop of `PlaywrightAgent.execute` (src/PlaywrightAgent.ts),
* the macro-tool packing, tool resolution and the wait accumulator of
  `PlaywrightAgent.#packMacroTool`,
* the `done` tool's input schema (src/tools/index.ts),
* `PlaywrightController` state, `clickElement` and `dispose`
  (PlaywrightController.ts),
* the in-page extraction pass `buildDomTree` and the locator
  materialisation of `getFlatTree`, plus `getSelectorMap`
  (src/dom/domTree.ts),
* the serializer `flatTreeToString` with its attribute filtering,
  text folding (`getAllTextTillNextClickableElement`) and bare-text
  emission rules (src/dom/domTree.ts).

Pure functions of the source become Lean functions; stateful code becomes
explicit state passing; exceptions become `Except`/`Option` values; the
external effects (Playwright page, LLM client, wall-clock durations) become
explicit oracle parameters.  Definitions follow the source line by line; the
comments name the source location each definition embeds.
-/

/-- `MAX_STEPS` from src/config/constants.ts. -/
def MAX_STEPS : Nat := 50

/-- `VIEWPORT_EXPANSION` from src/config/constants.ts. -/
def VIEWPORT_EXPANSION : Int := -1

/-- The fields of a decoded action input that the agent loop reads for the
`done` tool: `action.input?.text` and `action.input?.success`.  Both are
optional at this level because `execute` reads them defensively
(`?.` and `??` in src/PlaywrightAgent.ts lines 199-200). -/
structure ActionInput where
  text : Option String
  success : Option Bool
deriving Repr, DecidableEq

/-- The `action` part of one `AgentHistory` entry
(src/PlaywrightAgent.ts `AgentHistory.action`); the `brain` and `usage`
parts play no role in the verified properties. -/
structure HistoryEntry where
  name : String
  input : ActionInput
  output : String
deriving Repr, DecidableEq

/-- The observable outcome of one step's LLM invocation together with the
macro-tool execution: either the invocation rejected (the thrown `Error`'s
message, e.g. the `Tool ... not found.` throw of `#packMacroTool`), or it
produced a `MacroToolResult` whose action has the given name, input and
output string.  This is the per-step oracle of the loop model. -/
inductive StepOutcome where
  | err (msg : String)
  | ok (name : String) (input : ActionInput) (output : String)
deriving Repr, DecidableEq

/-- `ExecutionResult` from src/PlaywrightAgent.ts. -/
structure ExecutionResult where
  success : Bool
  data : String
  history : List HistoryEntry
deriving Repr, DecidableEq

/-- `action.input?.text || 'no text provided'` from src/PlaywrightAgent.ts
line 200 (JS `||` treats the empty string and `undefined` alike). -/
def doneDataOf (input : ActionInput) : String :=
  match input.text with
  | some t => if t = "" then "no text provided" else t
  | none => "no text provided"

/-- Placeholder entry used by `mkEntry` on the `err` outcome; an `err`
outcome never appends a history entry, so this value is never observed. -/
def errEntry (msg : String) : HistoryEntry :=
  { name := "", input := { text := none, success := none }, output := msg }

/-- The history entry appended for one `ok` step outcome
(src/PlaywrightAgent.ts lines 169-180). -/
def mkEntry (o : StepOutcome) : HistoryEntry :=
  match o with
  | .err msg => errEntry msg
  | .ok name input output => { name := name, input := input, output := output }

/-- The `while (true)` loop of `PlaywrightAgent.execute`
(src/PlaywrightAgent.ts lines 133-211), for a run with no external abort
and no pause.  `budget` maintains the invariant `budget = maxSteps - step`,
so the source's `step++; if (step > MAX_STEPS)` test is exactly the
`budget = 0` case here; the checks happen in source order: the history
entry is appended first, then the budget check, then the `done` check.
A rejected invocation (`err`) is caught by the surrounding `try`/`catch`,
which returns `String(error)` (i.e. `"Error: " ++ msg`) as `data` with the
history accumulated so far and no entry for the failing step. -/
def execSteps (acts : Nat → StepOutcome) : Nat → Nat → List HistoryEntry → ExecutionResult
  | step, 0, hist =>
    match acts step with
    | .err msg => { success := false, data := "Error: " ++ msg, history := hist }
    | .ok name input output =>
      { success := false, data := "Step count exceeded maximum limit",
        history := hist ++ [{ name := name, input := input, output := output }] }
  | step, budget + 1, hist =>
    match acts step with
    | .err msg => { success := false, data := "Error: " ++ msg, history := hist }
    | .ok name input output =>
      let hist2 := hist ++ [{ name := name, input := input, output := output }]
      if name = "done" then
        { success := input.success.getD false, data := doneDataOf input, history := hist2 }
      else
        execSteps acts (step + 1) budget hist2

/-- `PlaywrightAgent.execute(task)`: history is reset and the loop starts at
`step = 0` with budget `maxSteps` (so the `budget = 0` arm is reached
exactly when the incremented step count first exceeds `maxSteps`). -/
def execute (acts : Nat → StepOutcome) (maxSteps : Nat) : ExecutionResult :=
  execSteps acts 0 maxSteps []

/-- The `done` tool's input schema (src/tools/index.ts lines 33-36):
`text` is required (validation fails without it), `success` defaults to
`true` when omitted (`zod.boolean().default(true)`). -/
def doneInputParse (text : Option String) (success : Option Bool) :
    Option (String × Bool) :=
  match text with
  | none => none
  | some t => some (t, success.getD true)

/-- The names in the default tool registry after the `PlaywrightAgent`
constructor ran with no custom tools (src/tools/index.ts registration
order; `execute_javascript` is deleted by the constructor unless
`experimentalScriptExecutionTool` is set, src/PlaywrightAgent.ts
lines 101-103). -/
def defaultToolNames : List String :=
  ["done", "wait", "ask_user", "click_element_by_index", "input_text",
   "select_dropdown_option", "scroll", "scroll_horizontally"]

/-- Tool resolution in `#packMacroTool` (src/PlaywrightAgent.ts lines
266-270): `tools.get(toolName)`; when the name is not registered the macro
tool throws `new Error("Tool " + toolName + " not found.")`. -/
def resolveTool (registry : List String) (name : String) : Except String String :=
  if name ∈ registry then Except.ok name
  else Except.error ("Tool " ++ name ++ " not found.")

/-- JS `Math.round` on the (non-negative) values reaching it:
`⌊x + 1/2⌋`. -/
def jsRound (x : ℚ) : ℤ := ⌊x + 1 / 2⌋

/-- JS `String.prototype.trim()`, modelled on the character list (the
built-in `String.trim` is not kernel-reducible). -/
def jsTrim (s : String) : String :=
  ⟨((s.data.dropWhile Char.isWhitespace).reverse.dropWhile Char.isWhitespace).reverse⟩

/-- JS `String.prototype.toLowerCase()`, modelled on the character list. -/
def jsToLower (s : String) : String := ⟨s.data.map Char.toLower⟩

/-- JS `String.prototype.substring(0, n)`, modelled on the character
list. -/
def jsTake (s : String) (n : Nat) : String := ⟨s.data.take n⟩

/-- The wait-accumulator post-processing of `#packMacroTool`
(src/PlaywrightAgent.ts lines 282-291).  `seconds` is the validated tool
input, `durationMs` the measured `Date.now()` difference around the tool
execution (an external oracle), `result` the string the tool returned and
`totalWaitTime` the current `#totalWaitTime`.  Returns the adjusted output
string and the new `#totalWaitTime`. -/
def macroWaitPost (toolName : String) (seconds durationMs : ℚ) (result : String)
    (totalWaitTime : ℤ) : String × ℤ :=
  if toolName = "wait" then
    let t := totalWaitTime + jsRound (seconds + durationMs / 1000)
    let r1 := result ++ "\n<sys> You have waited " ++ toString t ++ " seconds accumulatively."
    let r2 := if 3 ≤ t then r1 ++ "\nDo NOT wait any longer unless you have a good reason.\n" else r1
    (r2 ++ "</sys>", t)
  else
    (result, 0)

/-! ## DOM data model (src/dom/type.ts) -/

/-- Scroll overflow data computed by `isScrollableElement`
(src/dom/domTree.ts lines 158-179). -/
structure ScrollData where
  top : Int
  right : Int
  bottom : Int
  left : Int
deriving Repr, DecidableEq

/-- One element node of the flat DOM tree.  `highlightIndex` is assigned
only to indexed interactive elements; `marker` models the live-DOM
attribute `data-pw-agent-index` stamped by the extraction pass (it is not
part of the snapshotted `attributes`, which are read before stamping);
`locator` is `none` until the second phase of `getFlatTree` materialises
it from the marker. -/
structure ElemData where
  tagName : String
  attributes : List (String × String)
  children : List String
  isVisible : Bool
  isTopElement : Bool
  isInViewport : Bool
  isInteractive : Bool
  highlightIndex : Option Nat
  marker : Option Nat
  locator : Option String
  scrollData : Option ScrollData
deriving Repr, DecidableEq

/-- A node of the flat DOM tree: a text node (`TEXT_NODE` entries of
`DOM_HASH_MAP`) or an element node. -/
inductive DomNode where
  | textNode (text : String) (isVisible : Bool)
  | elemNode (data : ElemData)
deriving Repr, DecidableEq

/-- `FlatDomTree` (src/dom/type.ts): root id plus the id → node map,
kept as an association list in insertion (id) order. -/
structure FlatDomTree where
  rootId : String
  map : List (String × DomNode)
deriving Repr, DecidableEq

/-! ## PlaywrightController state (PlaywrightController.ts) -/

/-- `ActionResult` (actions.ts / PlaywrightController.ts). -/
structure ActionResult where
  success : Bool
  message : String
deriving Repr, DecidableEq

/-- The private state of `PlaywrightController`. -/
structure ControllerState where
  flatTree : Option FlatDomTree
  selectorMap : List (Nat × ElemData)
  elementTextMap : List (Nat × String)
  simplifiedHTML : String
  lastTimeUpdate : Nat
deriving Repr, DecidableEq

/-- The field initialisers of `PlaywrightController` (lines 42-60): the
state before the first `updateTree` call. -/
def initController : ControllerState :=
  { flatTree := none, selectorMap := [], elementTextMap := [],
    simplifiedHTML := "<EMPTY>", lastTimeUpdate := 0 }

/-- `PlaywrightController.dispose()` (lines 319-324): drop the tree, clear
both maps and reset the simplified HTML to the `"<EMPTY>"` sentinel. -/
def disposeController (s : ControllerState) : ControllerState :=
  { flatTree := none, selectorMap := [], elementTextMap := [],
    simplifiedHTML := "<EMPTY>", lastTimeUpdate := s.lastTimeUpdate }

/-- `PlaywrightController.getSimplifiedHTML()`. -/
def getSimplifiedHTML (s : ControllerState) : String := s.simplifiedHTML

/-- `PlaywrightController.getElementCount()` (`selectorMap.size`). -/
def getElementCount (s : ControllerState) : Nat := s.selectorMap.length

/-- `PlaywrightController.getElementText(index)`
(`elementTextMap.get(index)`). -/
def getElementText (s : ControllerState) (index : Nat) : Option String :=
  s.elementTextMap.lookup index

/-- `PlaywrightController.clickElement(index)` (lines 159-190).  The
`selectorMap.get(index)` result and the `elementTextMap.get(index)` result
are passed in as the relevant projections of the controller state; the
low-level Playwright click outcome (actions.ts `clickElement`, which never
throws) is the `clickResult` oracle.  A missing index throws
`new Error(...)`, which the surrounding `catch` turns into a failure
result whose message embeds `String(error)`. -/
def clickElement (node : Option ElemData) (elemText : Option String) (index : Nat)
    (clickResult : ActionResult) : ActionResult :=
  match node with
  | none =>
    { success := false,
      message := "❌ Failed to click element: Error: No interactive element found at index "
        ++ toString index }
  | some n =>
    if n.attributes.lookup "target" = some "_blank" then
      { success := true,
        message := "✅ Clicked element (" ++ elemText.getD (toString index)
          ++ "). ⚠️ Link opens in a new tab. You are not capable of reading new tabs." }
    else
      { success := clickResult.success,
        message :=
          if clickResult.success then
            "✅ Clicked element (" ++ elemText.getD (toString index) ++ ")."
          else clickResult.message }

/-! ## The in-page extraction pass (src/dom/domTree.ts, `buildDomTree`)

The walk runs in the page's scripting context over the live DOM.  The
embedding represents the live DOM as a tree whose element nodes carry, as
oracle fields, the outcomes of the browser-dependent predicates of the
script: `isElementVisible` (`visible`), the geometric part of
`isTopElement` (`topRaw`; the function short-circuits to `true` when the
expansion is `-1`), the geometric part of `isInViewport` (`inVpRaw`; same
short-circuit), `isInteractiveElement` (`interactive`),
`getElementAttributes` (`attrs`, including the checkbox/radio `checked`
sidecar) and `isScrollableElement` (`scroll`).  Child order is document
order. -/

mutual
inductive DomInput where
  | text (content : String)
  | elem (tag : String) (attrs : List (String × String)) (visible : Bool)
      (topRaw : Bool) (inVpRaw : Bool) (interactive : Bool)
      (scroll : Option ScrollData) (children : DomForest)
inductive DomForest where
  | nil
  | cons (head : DomInput) (tail : DomForest)
end

/-- The tags skipped by the walk (src/dom/domTree.ts line 191). -/
def skipTags : List String :=
  ["script", "style", "link", "meta", "noscript", "template"]

/-- `isTopElement(element, expansion)` as recorded for a visible element
(domTree.ts lines 122-140): `true` outright when the expansion is `-1`,
else the geometric answer `topRaw`; an invisible element records no flag,
which reads back as `false`. -/
def isTopFlag (vpExp : Int) (visible topRaw : Bool) : Bool :=
  visible && (decide (vpExp = -1) || topRaw)

/-- `isInViewport(element, expansion)` as recorded (lines 106-119), with
the same `-1` short-circuit and absence convention. -/
def inVpFlag (vpExp : Int) (visible inVpRaw : Bool) : Bool :=
  visible && (decide (vpExp = -1) || inVpRaw)

/-- The recorded `isInteractive` flag (line 208): set (true) exactly for
visible, topmost, interactive elements. -/
def interFlag (vpExp : Int) (visible topRaw interactive : Bool) : Bool :=
  isTopFlag vpExp visible topRaw && interactive

/-- The index-assignment condition (line 210):
`isInteractive && (isInViewport || viewportExpansion === -1)`. -/
def assignFlag (vpExp : Int) (visible topRaw inVpRaw interactive : Bool) : Bool :=
  interFlag vpExp visible topRaw interactive
    && (inVpFlag vpExp visible inVpRaw || decide (vpExp = -1))

/-- The mutable state of the extraction script: the `ID` counter, the
`highlightIndex` counter, the `DOM_HASH_MAP` in insertion order, and the
trace of `data-pw-agent-index` stampings in the order the script performed
them (each `setAttribute` appends the index it stamped). -/
structure BuildState where
  idCur : Nat
  hi : Nat
  map : List (String × DomNode)
  stampLog : List Nat
deriving Repr, DecidableEq

/-- Initial `BuildState` (`ID.current = 0`, `highlightIndex = 0`, empty
map). -/
def initBuildState : BuildState :=
  { idCur := 0, hi := 0, map := [], stampLog := [] }

mutual
/-- `buildDomTree(node)` (src/dom/domTree.ts lines 182-254) for an element
node.  Returns the node id (or `none` for skipped tags) and the updated
state.  Field recording follows the source: flags are only set inside the
`isElementVisible` branch (an absent flag reads back as `false`);
`highlightIndex`, the attribute snapshot and the marker stamping happen
only for visible, topmost, interactive nodes that are in the (possibly
disabled) viewport, and the `highlightIndex` counter increments exactly
there, before the children are walked. -/
def buildNode (vpExp : Int) : DomInput → BuildState → Option String × BuildState
  | .text _, st => (none, st)
  | .elem tag attrs visible topRaw inVpRaw interactive scroll children, st =>
    if tag ∈ skipTags then (none, st)
    else
      let assign := assignFlag vpExp visible topRaw inVpRaw interactive
      let hIdx : Option Nat := if assign then some st.hi else none
      let nodeAttrs := if assign then attrs else []
      let st1 :=
        if assign then
          { st with hi := st.hi + 1, stampLog := st.stampLog ++ [st.hi] }
        else st
      let r := buildKids vpExp children st1
      let node := DomNode.elemNode
        { tagName := tag, attributes := nodeAttrs, children := r.1,
          isVisible := visible, isTopElement := isTopFlag vpExp visible topRaw,
          isInViewport := inVpFlag vpExp visible inVpRaw,
          isInteractive := interFlag vpExp visible topRaw interactive,
          highlightIndex := hIdx, marker := hIdx,
          locator := none, scrollData := scroll }
      let id := toString r.2.idCur
      (some id,
        { r.2 with idCur := r.2.idCur + 1, map := r.2.map ++ [(id, node)] })

/-- The child-processing loop of `buildDomTree` (lines 230-249): text
children contribute a `TEXT_NODE` entry when their trimmed content is
non-empty, element children recurse; ids of contributed children are
collected in order. -/
def buildKids (vpExp : Int) : DomForest → BuildState → List String × BuildState
  | .nil, st => ([], st)
  | .cons c rest, st =>
    match c with
    | .text content =>
      let t := jsTrim content
      if t = "" then buildKids vpExp rest st
      else
        let id := toString st.idCur
        let st1 := { st with idCur := st.idCur + 1,
                             map := st.map ++ [(id, DomNode.textNode t true)] }
        let r := buildKids vpExp rest st1
        (id :: r.1, r.2)
    | .elem _ _ _ _ _ _ _ _ =>
      match buildNode vpExp c st with
      | (some id, st1) =>
        let r := buildKids vpExp rest st1
        (id :: r.1, r.2)
      | (none, st1) => buildKids vpExp rest st1
end

/-- The Playwright locator string created for index `i` in the second
phase of `getFlatTree` (src/dom/domTree.ts line 274):
`page.locator('[data-pw-agent-index="i"]')`. -/
def markerQuery (i : Nat) : String :=
  "[data-pw-agent-index=\"" ++ toString i ++ "\"]"

/-- The second phase of `getFlatTree` (lines 270-291): every map entry with
`isInteractive` truthy and a numeric `highlightIndex` gets its `locator`
materialised from the marker attribute query. -/
def materializeNode : DomNode → DomNode
  | .textNode t v => .textNode t v
  | .elemNode d =>
    match d.highlightIndex with
    | some i =>
      if d.isInteractive then .elemNode { d with locator := some (markerQuery i) }
      else .elemNode d
    | none => .elemNode d

/-- `getFlatTree(page, config)` (src/dom/domTree.ts lines 13-294): run the
in-page walk from the body, then materialise locators.  The `rootId || '0'`
fallback of line 260 applies when the body was skipped. -/
def getFlatTree (vpExp : Int) (body : DomInput) : FlatDomTree :=
  let r := buildNode vpExp body initBuildState
  { rootId := r.1.getD "0",
    map := r.2.map.map (fun p => (p.1, materializeNode p.2)) }

/-- The final `BuildState` of the walk that produced `getFlatTree vpExp
body` (used to state properties about the stamp trace and counters). -/
def buildRunState (vpExp : Int) (body : DomInput) : BuildState :=
  (buildNode vpExp body initBuildState).2

/-- `getSelectorMap(flatTree)` (src/dom/getSelectorMap.ts): the entries of
the map whose node is interactive with a numeric `highlightIndex`, keyed by
that index, in map iteration order. -/
def getSelectorMap (flatTree : FlatDomTree) : List (Nat × ElemData) :=
  flatTree.map.filterMap (fun p =>
    match p.2 with
    | .elemNode d =>
      if d.isInteractive then
        match d.highlightIndex with
        | some i => some (i, d)
        | none => none
      else none
    | .textNode _ _ => none)

/-- The `highlightIndex` of a map node, when it is an indexed element. -/
def hIdxOf : DomNode → Option Nat
  | .elemNode d => d.highlightIndex
  | .textNode _ _ => none

/-- The stamped marker of a map node (the live `data-pw-agent-index`
attribute), when present. -/
def markerOf : DomNode → Option Nat
  | .elemNode d => d.marker
  | .textNode _ _ => none

/-- The highlight indices of the map entries, in map (id, i.e. post-order)
order. -/
def mapIndices (m : List (String × DomNode)) : List Nat :=
  m.filterMap (fun p => hIdxOf p.2)

/-! ## Serializer (src/dom/domTree.ts, `flatTreeToString`)

`flatTreeToString` first unfolds the flat map into an in-memory `TreeNode`
tree (`buildTreeNode` + `setParentReferences`) and then renders it.  The
embedding works on that unfolded tree directly; the parent pointers of the
source become an explicit ancestor chain (nearest ancestor first) passed to
the processing functions, which is exactly the chain the source's
`node.parent` walk traverses. -/

mutual
/-- The serializer's internal `TreeNode` (domTree.ts lines 384-397), with
`extra.scrollable`/`extra.scrollData` folded into an `Option ScrollData`. -/
inductive TreeNode where
  | text (text : String) (isVisible : Bool)
  | elem (tagName : String) (attributes : List (String × String))
      (isVisible isInteractive isTopElement isNew : Bool)
      (highlightIndex : Option Nat) (scroll : Option ScrollData)
      (children : TreeForest)
inductive TreeForest where
  | nil
  | cons (head : TreeNode) (tail : TreeForest)
end

/-- `DEFAULT_INCLUDE_ATTRIBUTES` (domTree.ts lines 403-423). -/
def DEFAULT_INCLUDE_ATTRIBUTES : List String :=
  ["title", "type", "checked", "name", "role", "value", "placeholder",
   "data-date-format", "alt", "aria-label", "aria-expanded", "data-state",
   "aria-checked", "id", "for", "target", "aria-haspopup", "aria-controls",
   "aria-owns"]

/-- `capTextLength` (domTree.ts lines 428-433). -/
def capTextLength (text : String) (maxLength : Nat) : String :=
  if maxLength < text.length then (jsTake text maxLength) ++ "..." else text

/-- Stage 1 of the attribute filtering (domTree.ts lines 552-558): for each
key of `includeAttrs` in order, keep `node.attributes[key].trim()` when the
raw value is truthy and trims non-empty.  JS object semantics: the first
insertion fixes the entry's position, and re-assigning the same key stores
the same value again, so repeated keys are skipped here. -/
def buildAttrsToInclude (includeAttrs : List String) (attrs : List (String × String)) :
    List (String × String) :=
  includeAttrs.foldl (fun acc key =>
    if (acc.lookup key).isSome then acc
    else
      match attrs.lookup key with
      | some v => if jsTrim v = "" then acc else acc ++ [(key, jsTrim v)]
      | none => acc) []

/-- `includeAttrs.filter((key) => key in attributesToInclude)`
(domTree.ts line 561). -/
def orderedIncludeKeys (includeAttrs : List String) (A : List (String × String)) :
    List String :=
  includeAttrs.filter (fun k => (A.lookup k).isSome)

/-- The `keysToRemove` computation of the dedup loop (domTree.ts lines
563-575): walk `orderedKeys`, tracking the set of values of length > 5 seen
so far; a key whose value was already seen is flagged for removal. -/
def computeKeysToRemove (A : List (String × String)) :
    List String → List String → List String
  | [], _ => []
  | k :: ks, seen =>
    match A.lookup k with
    | some v =>
      if 5 < v.length then
        if v ∈ seen then k :: computeKeysToRemove A ks seen
        else computeKeysToRemove A ks (v :: seen)
      else computeKeysToRemove A ks seen
    | none => computeKeysToRemove A ks seen

/-- Stage 2, value dedup (domTree.ts lines 560-580): only runs when more
than one ordered key exists; flagged keys are deleted. -/
def dedupAttrValues (includeAttrs : List String) (A : List (String × String)) :
    List (String × String) :=
  let orderedKeys := orderedIncludeKeys includeAttrs A
  if 1 < orderedKeys.length then
    let toRemove := computeKeysToRemove A orderedKeys []
    A.filter (fun kv => kv.1 ∉ toRemove)
  else A

/-- Stage 3 (domTree.ts lines 582-585): drop `role` when its value equals
the tag name. -/
def removeRoleIfTag (tagName : String) (A : List (String × String)) :
    List (String × String) :=
  if A.lookup "role" = some tagName then A.filter (fun kv => kv.1 ≠ "role") else A

/-- Stage 4 (domTree.ts lines 587-596): drop `aria-label`, `placeholder`
and `title` when their value equals the element's collected text
(case-insensitively, trimmed); the source also requires the value to be
truthy. -/
def removeTextDuplicateAttrs (text : String) (A : List (String × String)) :
    List (String × String) :=
  ["aria-label", "placeholder", "title"].foldl (fun acc attr =>
    match acc.lookup attr with
    | some v =>
      if v ≠ "" ∧ jsTrim (jsToLower v) = jsTrim (jsToLower text) then
        acc.filter (fun kv => kv.1 ≠ attr)
      else acc
    | none => acc) A

/-- The whole attribute-filtering pipeline applied to one element's
snapshot attributes (domTree.ts lines 549-596). -/
def filterAttributes (includeAttrs : List String) (attrs : List (String × String))
    (tagName text : String) : List (String × String) :=
  removeTextDuplicateAttrs text
    (removeRoleIfTag tagName
      (dedupAttrValues includeAttrs (buildAttrsToInclude includeAttrs attrs)))

/-- Rendering of the retained attributes (domTree.ts lines 598-602):
`key=value` pairs, each value capped at 20 characters, joined by single
spaces. -/
def renderAttrs (A : List (String × String)) : String :=
  String.intercalate " " (A.map (fun kv => kv.1 ++ "=" ++ capTextLength kv.2 20))

/-- `'\t'.repeat(depth)` (domTree.ts line 539). -/
def depthStr (n : Nat) : String := String.mk (List.replicate n '\t')

/-- The `data-scrollable` annotation (domTree.ts lines 613-626): present
whenever `extra.scrollable` is set, listing the non-zero (truthy) sides in
left, top, right, bottom order, with `", "` after every side except
`bottom`. -/
def scrollAnnot : Option ScrollData → String
  | none => ""
  | some s =>
    let t := (if s.left ≠ 0 then "left=" ++ toString s.left ++ ", " else "")
      ++ (if s.top ≠ 0 then "top=" ++ toString s.top ++ ", " else "")
      ++ (if s.right ≠ 0 then "right=" ++ toString s.right ++ ", " else "")
      ++ (if s.bottom ≠ 0 then "bottom=" ++ toString s.bottom else "")
    " data-scrollable=\"" ++ t ++ "\""

/-- Whether a tree node is an element carrying a `highlightIndex` (the
condition of the source's `current.highlightIndex !== undefined` tests). -/
def isIndexedNode : TreeNode → Bool
  | .elem _ _ _ _ _ _ (some _) _ _ => true
  | _ => false

/-- `hasParentWithHighlightIndex(node)` (domTree.ts lines 494-503), with
the parent-pointer walk replaced by the explicit ancestor chain (nearest
ancestor first). -/
def hasParentWithHighlightIndex (ancs : List TreeNode) : Bool :=
  ancs.any isIndexedNode

mutual
/-- The `collectText` recursion inside `getAllTextTillNextClickableElement`
(domTree.ts lines 509-531).  `isRoot` models the `currentNode !== node`
object-identity test (the tree has no sharing, so a strict descendant is
never the root node).  Text parts of a branch are skipped as soon as an
indexed element other than the root is reached. -/
def collectParts (maxDepth : Int) : TreeNode → Int → Bool → List String
  | n, depth, isRoot =>
    if maxDepth ≠ -1 ∧ maxDepth < depth then []
    else
      match n with
      | .text t _ => if t ≠ "" then [t] else []
      | .elem _ _ _ _ _ _ hIdx _ kids =>
        if ¬ isRoot ∧ hIdx.isSome then []
        else collectPartsF maxDepth kids (depth + 1)

/-- Child iteration of `collectText`: every child is visited at
`depth + 1`. -/
def collectPartsF (maxDepth : Int) : TreeForest → Int → List String
  | .nil, _ => []
  | .cons c rest, depth =>
    collectParts maxDepth c depth false ++ collectPartsF maxDepth rest depth
end

/-- `getAllTextTillNextClickableElement(node, maxDepth = -1)` (domTree.ts
lines 506-534): join the collected parts with newlines and trim. -/
def getAllTextTillNextClickableElement (n : TreeNode) (maxDepth : Int) : String :=
  jsTrim (String.intercalate "\n" (collectParts maxDepth n 0 true))

/-- The element line built by `processNode` for an indexed element
(domTree.ts lines 598-639). -/
def renderElemLine (includeAttrs : List String) (depth i : Nat) (tag : String)
    (attrs : List (String × String)) (isNew : Bool) (scroll : Option ScrollData)
    (text : String) : String :=
  let attributesHtmlStr := renderAttrs (filterAttributes includeAttrs attrs tag text)
  let highlightIndicator := (if isNew then "*[" else "[") ++ toString i ++ "]"
  let line := depthStr depth ++ highlightIndicator ++ "<" ++ tag
  let line := if attributesHtmlStr ≠ "" then line ++ " " ++ attributesHtmlStr else line
  let line := line ++ scrollAnnot scroll
  let line :=
    if text ≠ "" then
      (if attributesHtmlStr = "" then line ++ " " else line) ++ ">" ++ jsTrim text
    else if attributesHtmlStr = "" then line ++ " " else line
  line ++ " />"

mutual
/-- `processNode(node, depth, result)` (domTree.ts lines 537-661), with the
result accumulator replaced by the returned line list and the parent
pointers by the ancestor chain `ancs` (nearest first).  An indexed element
emits its line and processes children one level deeper; a non-indexed
element only processes children; a text node emits a bare line only when no
ancestor is indexed and its parent element is visible and topmost. -/
def processNode (includeAttrs : List String) :
    TreeNode → List TreeNode → Nat → List String
  | n, ancs, depth =>
    match n with
    | .elem tag attrs _ _ _ isNew hIdx scroll kids =>
      match hIdx with
      | some i =>
        let text := getAllTextTillNextClickableElement n (-1)
        renderElemLine includeAttrs depth i tag attrs isNew scroll text ::
          processForest includeAttrs kids (n :: ancs) (depth + 1)
      | none =>
        processForest includeAttrs kids (n :: ancs) depth
    | .text t _ =>
      if hasParentWithHighlightIndex ancs then []
      else
        match ancs.head? with
        | some (.elem _ _ pvis _ ptop _ _ _ _) =>
          if pvis && ptop then [depthStr depth ++ t] else []
        | _ => []

/-- Child iteration of `processNode` (domTree.ts lines 642-645). -/
def processForest (includeAttrs : List String) :
    TreeForest → List TreeNode → Nat → List String
  | .nil, _, _ => []
  | .cons c rest, ancs, depth =>
    processNode includeAttrs c ancs depth ++ processForest includeAttrs rest ancs depth
end

/-- `flatTreeToString` on the unfolded tree (domTree.ts lines 663-665):
process the root with empty ancestor chain at depth 0 and join with
newlines. -/
def serializeTree (includeAttrs : List String) (root : TreeNode) : String :=
  String.intercalate "\n" (processNode includeAttrs root [] 0)

/-! ## Instrumented serializer

`processT`/`collectTP` are `processNode`/`collectParts` with each produced
line (resp. collected text) tagged by the tree path of the node it came
from; erasing the tags gives back the source functions (proved below).
Paths are lists of child positions from the root. -/

/-- Position lookup in a forest. -/
def forestGet : TreeForest → Nat → Option TreeNode
  | .nil, _ => none
  | .cons h _, 0 => some h
  | .cons _ t, n + 1 => forestGet t n

/-- The node reached from `n` by the path `p` of child positions. -/
def nodeAt : TreeNode → List Nat → Option TreeNode
  | n, [] => some n
  | .text _ _, _ :: _ => none
  | .elem _ _ _ _ _ _ _ _ kids, j :: rest =>
    match forestGet kids j with
    | some c => nodeAt c rest
    | none => none

/-- The text content at path `p`, when `p` reaches a text node. -/
def textAt (root : TreeNode) (p : List Nat) : Option String :=
  match nodeAt root p with
  | some (.text t _) => some t
  | _ => none

/-- Whether the node at path `p` is an indexed element. -/
def isIndexedAt (root : TreeNode) (p : List Nat) : Bool :=
  match nodeAt root p with
  | some n => isIndexedNode n
  | none => false

/-- The parent of the node at path `rel` below `n` (whose own ancestor
chain is `ancs`, nearest first) is visible and topmost. -/
def parentVisTop (n : TreeNode) (ancs : List TreeNode) (rel : List Nat) : Prop :=
  match rel with
  | [] =>
    match ancs.head? with
    | some (.elem _ _ pvis _ ptop _ _ _ _) => pvis = true ∧ ptop = true
    | _ => False
  | _ :: _ =>
    match nodeAt n rel.dropLast with
    | some (.elem _ _ pvis _ ptop _ _ _ _) => pvis = true ∧ ptop = true
    | _ => False

/-- A serializer output line tagged with the path of the node that emitted
it: a bare text line or an indexed-element line. -/
inductive PLine where
  | bare (depth : Nat) (text : String) (path : List Nat)
  | elemL (depth : Nat) (idx : Nat) (line : String) (path : List Nat)
deriving Repr, DecidableEq

/-- Erase a tagged line back to the string `processNode` pushes. -/
def renderPLine : PLine → String
  | .bare d t _ => depthStr d ++ t
  | .elemL _ _ line _ => line

mutual
/-- `processNode` with path tagging (`p` is the current node's path). -/
def processT (includeAttrs : List String) :
    TreeNode → List TreeNode → Nat → List Nat → List PLine
  | n, ancs, depth, p =>
    match n with
    | .elem tag attrs _ _ _ isNew hIdx scroll kids =>
      match hIdx with
      | some i =>
        let text := getAllTextTillNextClickableElement n (-1)
        PLine.elemL depth i (renderElemLine includeAttrs depth i tag attrs isNew scroll text) p ::
          processTF includeAttrs kids (n :: ancs) (depth + 1) p 0
      | none =>
        processTF includeAttrs kids (n :: ancs) depth p 0
    | .text t _ =>
      if hasParentWithHighlightIndex ancs then []
      else
        match ancs.head? with
        | some (.elem _ _ pvis _ ptop _ _ _ _) =>
          if pvis && ptop then [PLine.bare depth t p] else []
        | _ => []

/-- Child iteration of `processT`; `j` is the position of the next child. -/
def processTF (includeAttrs : List String) :
    TreeForest → List TreeNode → Nat → List Nat → Nat → List PLine
  | .nil, _, _, _, _ => []
  | .cons c rest, ancs, depth, p, j =>
    processT includeAttrs c ancs depth (p ++ [j]) ++
      processTF includeAttrs rest ancs depth p (j + 1)
end

mutual
/-- `collectText` (at `maxDepth = -1`) with each collected part tagged by
its path relative to the collection root. -/
def collectTP : TreeNode → Bool → List (List Nat × String)
  | .text t _, _ => if t ≠ "" then [([], t)] else []
  | .elem _ _ _ _ _ _ hIdx _ kids, isRoot =>
    if ¬ isRoot ∧ hIdx.isSome then [] else collectTPF kids 0

/-- Child iteration of `collectTP`; `j` is the position of the next
child. -/
def collectTPF : TreeForest → Nat → List (List Nat × String)
  | .nil, _ => []
  | .cons c rest, j =>
    (collectTP c false).map (fun q => (j :: q.1, q.2)) ++ collectTPF rest (j + 1)
end

/-- Per-entry invariant of the walk over the half-open index range
`[lo, hi)`: the marker always mirrors the highlight index, locators are
unassigned before materialisation, and an assigned index certifies an
interactive node with an index inside the range. -/
def nodeOK (lo hi : Nat) (p : String × DomNode) : Prop :=
  match p.2 with
  | .textNode _ _ => True
  | .elemNode d =>
    d.marker = d.highlightIndex ∧ d.locator = none ∧
      ∀ i, d.highlightIndex = some i → lo ≤ i ∧ i < hi ∧ d.isInteractive = true

/-- The segment invariant relating the walk state before and after
processing some part of the DOM: the highlight counter only grows, the
stamp trace is extended by the consecutive indices of the segment, and the
map grows by entries whose indices are exactly (as a multiset) that
consecutive range. -/
def SegSpec (st st2 : BuildState) : Prop :=
  st.hi ≤ st2.hi ∧
  st2.stampLog = st.stampLog ++ List.range' st.hi (st2.hi - st.hi) ∧
  ∃ Δ, st2.map = st.map ++ Δ ∧
    (mapIndices Δ).Perm (List.range' st.hi (st2.hi - st.hi)) ∧
    ∀ p ∈ Δ, nodeOK st.hi st2.hi p

/-- Specification of when the text node at relative path `rel` below `n`
(whose ancestor chain is `ancs`) is emitted as a bare line: no ancestor is
indexed, no strictly intermediate node on the way down is indexed, and the
immediate parent is a visible, topmost element. -/
def BareOK (n : TreeNode) (ancs : List TreeNode) (rel : List Nat) (t : String) : Prop :=
  hasParentWithHighlightIndex ancs = false ∧ textAt n rel = some t ∧
  (∀ q s, rel = q ++ s → q ≠ rel → isIndexedAt n q = false) ∧
  parentVisTop n ancs rel

/-- Specification of when the text at relative path `rel` below `n` is
collected by `getAllTextTillNextClickableElement`: a non-empty text is
reached without crossing another indexed element strictly below `n`. -/
def CollectOK (n : TreeNode) (rel : List Nat) (t : String) : Prop :=
  textAt n rel = some t ∧ t ≠ "" ∧
  ∀ q s, rel = q ++ s → q ≠ [] → isIndexedAt n q = false

/-- A sample snapshot subtree: an indexed `button` containing a text
node. -/
def sampleBtn : TreeNode :=
  TreeNode.elem "button" [] true true true false (some 0) none
    (TreeForest.cons (TreeNode.text "world" true) TreeForest.nil)

/-- A sample snapshot tree: a visible topmost non-indexed `div` containing
a bare text node and `sampleBtn`. -/
def sampleRoot : TreeNode :=
  TreeNode.elem "div" [] true false true false none none
    (TreeForest.cons (TreeNode.text "hello" true)
      (TreeForest.cons sampleBtn TreeForest.nil))

/-! ## Theorems -/

/-- C10: before the first `updateTree` call (the constructor state) and
again after `dispose()`, `getSimplifiedHTML()` returns the sentinel
`"<EMPTY>"`, `getElementCount()` returns 0 and `getElementText(i)` is
undefined for every index `i`. -/
theorem controller_empty_state :
    getSimplifiedHTML initController = "<EMPTY>" ∧
    getElementCount initController = 0 ∧
    (∀ i, getElementText initController i = none) ∧
    ∀ s : ControllerState,
      getSimplifiedHTML (disposeController s) = "<EMPTY>" ∧
      getElementCount (disposeController s) = 0 ∧
      ∀ i, getElementText (disposeController s) i = none :=
  ⟨rfl, rfl, fun _ => rfl, fun _ => ⟨rfl, rfl, fun _ => rfl⟩⟩

/-- C6: a click dispatched on an index whose snapshot attributes contain
`target="_blank"` returns `success = true`, and the message is the success
message with the new-tab warning appended. -/
theorem clickElement_target_blank (n : ElemData) (elemText : Option String)
    (index : Nat) (clickResult : ActionResult)
    (h : n.attributes.lookup "target" = some "_blank") :
    clickElement (some n) elemText index clickResult =
      { success := true,
        message := "✅ Clicked element (" ++ elemText.getD (toString index)
          ++ "). ⚠️ Link opens in a new tab. You are not capable of reading new tabs." } ∧
    (clickElement (some n) elemText index clickResult).message =
      ("✅ Clicked element (" ++ elemText.getD (toString index) ++ "). ")
        ++ "⚠️ Link opens in a new tab. You are not capable of reading new tabs." := by
  constructor
  · simp [clickElement, h]
  · simp [clickElement, h, String.append_assoc]

/-- Witness for C6 at a concrete anchor node. -/
theorem clickElement_target_blank_witness :
    clickElement
        (some (ElemData.mk "a" [("target", "_blank")] [] true true true true
          (some 0) (some 0) (some (markerQuery 0)) none))
        (some "[0]<a target=_blank />") 0 (ActionResult.mk true "✅ Clicked element.") =
      { success := true,
        message := "✅ Clicked element (" ++ (some "[0]<a target=_blank />").getD (toString 0)
          ++ "). ⚠️ Link opens in a new tab. You are not capable of reading new tabs." } ∧
    (clickElement
        (some (ElemData.mk "a" [("target", "_blank")] [] true true true true
          (some 0) (some 0) (some (markerQuery 0)) none))
        (some "[0]<a target=_blank />") 0 (ActionResult.mk true "✅ Clicked element.")).message =
      ("✅ Clicked element (" ++ (some "[0]<a target=_blank />").getD (toString 0) ++ "). ")
        ++ "⚠️ Link opens in a new tab. You are not capable of reading new tabs." :=
  clickElement_target_blank _ _ _ _ (by decide)

/-- C8: after a `wait` action the accumulator grows by
`Math.round(seconds + duration/1000)` (and strictly grows, since the
schema forces `seconds ≥ 1`); the `<sys>` note discouraging further waits
is appended exactly when the new total is at least 3 seconds; any non-wait
action resets the accumulator to 0. -/
theorem macroWaitPost_spec (seconds durationMs : ℚ) (result : String) (total : ℤ)
    (name : String) (hs : 1 ≤ seconds) (hd : 0 ≤ durationMs) (hn : name ≠ "wait") :
    (macroWaitPost "wait" seconds durationMs result total).2
        = total + jsRound (seconds + durationMs / 1000) ∧
    total < (macroWaitPost "wait" seconds durationMs result total).2 ∧
    (3 ≤ total + jsRound (seconds + durationMs / 1000) →
      (macroWaitPost "wait" seconds durationMs result total).1
        = result ++ "\n<sys> You have waited "
            ++ toString (total + jsRound (seconds + durationMs / 1000))
            ++ " seconds accumulatively."
            ++ "\nDo NOT wait any longer unless you have a good reason.\n" ++ "</sys>") ∧
    (total + jsRound (seconds + durationMs / 1000) < 3 →
      (macroWaitPost "wait" seconds durationMs result total).1
        = result ++ "\n<sys> You have waited "
            ++ toString (total + jsRound (seconds + durationMs / 1000))
            ++ " seconds accumulatively." ++ "</sys>") ∧
    macroWaitPost name seconds durationMs result total = (result, 0) := by
  have hq : (0 : ℚ) ≤ durationMs / 1000 := by positivity
  have h1 : (1 : ℤ) ≤ jsRound (seconds + durationMs / 1000) := by
    rw [jsRound]
    refine Int.le_floor.mpr ?_
    push_cast
    linarith
  refine ⟨by simp [macroWaitPost], ?_, ?_, ?_, by simp [macroWaitPost, hn]⟩
  · have e : (macroWaitPost "wait" seconds durationMs result total).2
        = total + jsRound (seconds + durationMs / 1000) := by simp [macroWaitPost]
    rw [e]
    omega
  · intro h3
    simp [macroWaitPost, h3]
  · intro h3
    have hno : ¬ (3 ≤ total + jsRound (seconds + durationMs / 1000)) := by omega
    simp [macroWaitPost, hno]

/-- Witness for C8 at `seconds = 2`, `duration = 500 ms`, empty
accumulator: the increment is `Math.round(2.5) = 3`, so the note fires. -/
theorem macroWaitPost_spec_witness :
    (macroWaitPost "wait" 2 500 "ok" 0).2 = 0 + jsRound (2 + 500 / 1000) ∧
    (0 : ℤ) < (macroWaitPost "wait" 2 500 "ok" 0).2 ∧
    (3 ≤ 0 + jsRound (2 + 500 / 1000) →
      (macroWaitPost "wait" 2 500 "ok" 0).1
        = "ok" ++ "\n<sys> You have waited " ++ toString (0 + jsRound (2 + 500 / 1000))
            ++ " seconds accumulatively."
            ++ "\nDo NOT wait any longer unless you have a good reason.\n" ++ "</sys>") ∧
    (0 + jsRound (2 + 500 / 1000) < 3 →
      (macroWaitPost "wait" 2 500 "ok" 0).1
        = "ok" ++ "\n<sys> You have waited " ++ toString (0 + jsRound (2 + 500 / 1000))
            ++ " seconds accumulatively." ++ "</sys>") ∧
    macroWaitPost "click_element_by_index" 2 500 "ok" 0 = ("ok", 0) :=
  macroWaitPost_spec 2 500 "ok" 0 "click_element_by_index"
    (by norm_num) (by norm_num) (by decide)

/-- Shifting one entry out of a history segment. -/
theorem entries_cons_shift (f : Nat → HistoryEntry) (step b : Nat)
    (hist : List HistoryEntry) :
    (hist ++ [f step]) ++ (List.range (b + 1)).map (fun k => f (step + 1 + k)) =
      hist ++ (List.range (b + 1 + 1)).map (fun k => f (step + k)) := by
  have hf : (fun k => f (step + 1 + k)) = ((fun k => f (step + k)) ∘ Nat.succ) := by
    funext k
    show f (step + 1 + k) = f (step + (k + 1))
    congr 1
    omega
  rw [List.append_assoc]
  congr 1
  rw [List.range_succ_eq_map (n := b + 1), List.map_cons, List.map_map,
    List.singleton_append, hf]
  norm_num

/-- Running the loop from `step` with `budget` remaining steps when every
outcome in reach is a non-`done` action: the budget message is returned and
one entry per executed step is appended. -/
theorem execSteps_nondone (acts : Nat → StepOutcome) (budget : Nat) :
    ∀ (step : Nat) (hist : List HistoryEntry),
      (∀ n, step ≤ n → n ≤ step + budget →
        ∃ name input output, acts n = StepOutcome.ok name input output ∧ name ≠ "done") →
      execSteps acts step budget hist =
        { success := false, data := "Step count exceeded maximum limit",
          history := hist ++ (List.range (budget + 1)).map (fun k => mkEntry (acts (step + k))) } := by
  induction budget with
  | zero =>
    intro step hist h
    obtain ⟨name, input, output, hs, _⟩ := h step le_rfl (by omega)
    simp only [execSteps, hs]
    simp [List.range_succ, mkEntry, hs]
  | succ b ih =>
    intro step hist h
    obtain ⟨name, input, output, hs, hn⟩ := h step le_rfl (by omega)
    have hstep : execSteps acts step (b + 1) hist
        = execSteps acts (step + 1) b
            (hist ++ [{ name := name, input := input, output := output }]) := by
      simp [execSteps, hs, hn]
    have ih2 := ih (step + 1) (hist ++ [{ name := name, input := input, output := output }])
      (fun n h1 h2 => h n (by omega) (by omega))
    rw [hstep, ih2]
    have hm : ({ name := name, input := input, output := output } : HistoryEntry)
        = mkEntry (acts step) := by rw [hs]; rfl
    rw [hm]
    congr 1
    exact entries_cons_shift (fun k => mkEntry (acts k)) step b hist

/-- C1: with no `done` action and no external abort, `execute` runs exactly
`maxSteps + 1` steps (`MAX_STEPS` defaults to 50), appends one history
entry per step, and returns `success = false` with data
`"Step count exceeded maximum limit"`; with `maxSteps = 3` the history has
exactly 4 entries (witness below). -/
theorem execute_step_budget (acts : Nat → StepOutcome) (maxSteps : Nat)
    (h : ∀ n, n ≤ maxSteps →
      ∃ name input output, acts n = StepOutcome.ok name input output ∧ name ≠ "done") :
    MAX_STEPS = 50 ∧
    execute acts maxSteps =
      { success := false, data := "Step count exceeded maximum limit",
        history := (List.range (maxSteps + 1)).map (fun k => mkEntry (acts k)) } ∧
    (execute acts maxSteps).history.length = maxSteps + 1 := by
  have he := execSteps_nondone acts maxSteps 0 []
    (fun n h1 h2 => h n (by omega))
  simp only [Nat.zero_add, List.nil_append] at he
  refine ⟨rfl, ?_, ?_⟩
  · rw [execute, he]
  · rw [execute, he]
    simp

/-- Witness for C1 with `maxSteps = 3` and a constantly waiting model. -/
theorem execute_step_budget_witness :
    MAX_STEPS = 50 ∧
    execute (fun _ => StepOutcome.ok "wait" ⟨none, none⟩ "w") 3 =
      { success := false, data := "Step count exceeded maximum limit",
        history := (List.range (3 + 1)).map
          (fun k => mkEntry ((fun _ => StepOutcome.ok "wait" ⟨none, none⟩ "w") k)) } ∧
    (execute (fun _ => StepOutcome.ok "wait" ⟨none, none⟩ "w") 3).history.length = 3 + 1 :=
  execute_step_budget (fun _ => StepOutcome.ok "wait" ⟨none, none⟩ "w") 3
    (fun _ _ => ⟨"wait", ⟨none, none⟩, "w", rfl, by decide⟩)

/-- Running the loop from `step` when the first `done` action is at step
`k`, still within budget: the loop stops there with the `done` result. -/
theorem execSteps_done (acts : Nat → StepOutcome) (budget : Nat) :
    ∀ (step k : Nat) (input : ActionInput) (output : String) (hist : List HistoryEntry),
      (∀ n, step ≤ n → n < k →
        ∃ name inp out, acts n = StepOutcome.ok name inp out ∧ name ≠ "done") →
      acts k = StepOutcome.ok "done" input output →
      step ≤ k → k - step < budget →
      execSteps acts step budget hist =
        { success := input.success.getD false, data := doneDataOf input,
          history := hist ++ (List.range (k - step + 1)).map (fun j => mkEntry (acts (step + j))) } := by
  induction budget with
  | zero =>
    intro step k input output hist _ _ _ hbud
    omega
  | succ b ih =>
    intro step k input output hist hprev hk hle hbud
    rcases Nat.eq_or_lt_of_le hle with heq | hlt
    · subst heq
      simp only [execSteps, hk, if_pos rfl]
      simp [List.range_succ, mkEntry, hk]
    · obtain ⟨name, inp, out, hs, hn⟩ := hprev step le_rfl hlt
      have hstep : execSteps acts step (b + 1) hist
          = execSteps acts (step + 1) b
              (hist ++ [{ name := name, input := inp, output := out }]) := by
        simp [execSteps, hs, hn]
      have ih2 := ih (step + 1) k input output
        (hist ++ [{ name := name, input := inp, output := out }])
        (fun n h1 h2 => hprev n (by omega) h2) hk (by omega) (by omega)
      rw [hstep, ih2]
      have hm : ({ name := name, input := inp, output := out } : HistoryEntry)
          = mkEntry (acts step) := by rw [hs]; rfl
      rw [hm]
      congr 1
      have hcount : k - (step + 1) + 1 + 1 = k - step + 1 := by omega
      calc (hist ++ [mkEntry (acts step)])
            ++ (List.range (k - (step + 1) + 1)).map (fun j => mkEntry (acts (step + 1 + j)))
          = hist ++ (List.range (k - (step + 1) + 1 + 1)).map (fun j => mkEntry (acts (step + j))) :=
            entries_cons_shift (fun j => mkEntry (acts j)) step (k - (step + 1)) hist
        _ = hist ++ (List.range (k - step + 1)).map (fun j => mkEntry (acts (step + j))) := by
            rw [hcount]

/-- C2 (amended): when the first `done` action occurs at a step index still
below `maxSteps` (so the budget check, which runs first, does not fire),
`execute` terminates immediately with `success := input.success ?? false`
and `data := input.text` when that text is non-empty, `"no text provided"`
otherwise (`doneDataOf`); the `done` tool's declared schema fills in
`success := true` when the model omits it. -/
theorem execute_done (acts : Nat → StepOutcome) (k maxSteps : Nat)
    (input : ActionInput) (output : String)
    (hprev : ∀ n, n < k →
      ∃ name inp out, acts n = StepOutcome.ok name inp out ∧ name ≠ "done")
    (hk : acts k = StepOutcome.ok "done" input output)
    (hbud : k < maxSteps) :
    execute acts maxSteps =
      { success := input.success.getD false, data := doneDataOf input,
        history := (List.range (k + 1)).map (fun j => mkEntry (acts j)) } ∧
    (∀ t, doneInputParse (some t) none = some (t, true)) ∧
    (∀ t s, t ≠ "" → doneDataOf { text := some t, success := s } = t) := by
  have he := execSteps_done acts maxSteps 0 k input output []
    (fun n h1 h2 => hprev n h2) hk (Nat.zero_le k) (by omega)
  simp only [Nat.zero_add, Nat.sub_zero, List.nil_append] at he
  refine ⟨by rw [execute, he], fun t => rfl, fun t s ht => by simp [doneDataOf, ht]⟩

/-- Witness for C2: `done` at step 1 with non-empty text and omitted
runtime `success`. -/
theorem execute_done_witness :
    execute (fun n => if n = 0 then StepOutcome.ok "wait" ⟨none, none⟩ "w"
        else StepOutcome.ok "done" ⟨some "all done", none⟩ "Task completed") 50 =
      { success := (ActionInput.mk (some "all done") none).success.getD false,
        data := doneDataOf (ActionInput.mk (some "all done") none),
        history := (List.range (1 + 1)).map
          (fun j => mkEntry ((fun n => if n = 0 then StepOutcome.ok "wait" ⟨none, none⟩ "w"
            else StepOutcome.ok "done" ⟨some "all done", none⟩ "Task completed") j)) } ∧
    (∀ t, doneInputParse (some t) none = some (t, true)) ∧
    (∀ t s, t ≠ "" → doneDataOf { text := some t, success := s } = t) :=
  execute_done
    (fun n => if n = 0 then StepOutcome.ok "wait" ⟨none, none⟩ "w"
      else StepOutcome.ok "done" ⟨some "all done", none⟩ "Task completed")
    1 50 ⟨some "all done", none⟩ "Task completed"
    (fun n hn => ⟨"wait", ⟨none, none⟩, "w", by interval_cases n; rfl, by decide⟩)
    rfl (by omega)

/-- C2 counterexample: the claim's `data := input.text` fails when the text
is empty (`execute` substitutes `"no text provided"`), and a `done` action
arriving exactly when the step budget is exhausted is pre-empted by the
budget failure (the budget check runs before the `done` check). -/
theorem execute_done_counterexample :
    (execute (fun n => if n = 0 then StepOutcome.ok "done" ⟨some "", some true⟩ "Task completed"
        else StepOutcome.ok "wait" ⟨none, none⟩ "w") 3).data = "no text provided" ∧
    (execute (fun n => if n = 0 then StepOutcome.ok "done" ⟨some "", some true⟩ "Task completed"
        else StepOutcome.ok "wait" ⟨none, none⟩ "w") 3).success = true ∧
    "no text provided" ≠ "" ∧
    execute (fun _ => StepOutcome.ok "done" ⟨some "hi", some true⟩ "Task completed") 0 =
      { success := false, data := "Step count exceeded maximum limit",
        history := [HistoryEntry.mk "done" ⟨some "hi", some true⟩ "Task completed"] } := by
  refine ⟨rfl, rfl, by decide, rfl⟩

/-- C7 (amended): failures resolving an element index are returned as
action failures (the controller catches the throw and returns the message,
which the tool hands back as the action output) and the loop continues on
any non-`done` action result within budget; but a failing tool-name lookup
is a throw out of the macro tool, which terminates the whole task with
`success = false`, the stringified error as `data`, and no history entry
for the failing step. -/
theorem element_and_tool_failures
    (index : Nat) (elemText : Option String) (clickResult : ActionResult)
    (acts : Nat → StepOutcome) (step b : Nat) (hist : List HistoryEntry)
    (name : String) (input : ActionInput) (output : String)
    (registry : List String) (nm : String)
    (acts2 : Nat → StepOutcome) (step2 b2 : Nat) (hist2 : List HistoryEntry) (msg : String)
    (h1 : acts step = StepOutcome.ok name input output) (h2 : name ≠ "done")
    (h3 : nm ∉ registry)
    (h4 : acts2 step2 = StepOutcome.err msg) :
    clickElement none elemText index clickResult =
      { success := false,
        message := "❌ Failed to click element: Error: No interactive element found at index "
          ++ toString index } ∧
    execSteps acts step (b + 1) hist =
      execSteps acts (step + 1) b
        (hist ++ [{ name := name, input := input, output := output }]) ∧
    resolveTool registry nm = Except.error ("Tool " ++ nm ++ " not found.") ∧
    execSteps acts2 step2 b2 hist2 =
      { success := false, data := "Error: " ++ msg, history := hist2 } := by
  refine ⟨rfl, by simp [execSteps, h1, h2], by simp [resolveTool, h3], ?_⟩
  cases b2 <;> simp [execSteps, h4]

/-- Witness for C7 at concrete inputs. -/
theorem element_and_tool_failures_witness :
    clickElement none (some "desc") 7 (ActionResult.mk true "✅ Clicked element.") =
      { success := false,
        message := "❌ Failed to click element: Error: No interactive element found at index "
          ++ toString 7 } ∧
    execSteps (fun _ => StepOutcome.ok "click_element_by_index" ⟨none, none⟩ "❌ failed") 0 (2 + 1) [] =
      execSteps (fun _ => StepOutcome.ok "click_element_by_index" ⟨none, none⟩ "❌ failed") (0 + 1) 2
        ([] ++ [{ name := "click_element_by_index", input := ⟨none, none⟩, output := "❌ failed" }]) ∧
    resolveTool defaultToolNames "foo" = Except.error ("Tool " ++ "foo" ++ " not found.") ∧
    execSteps (fun _ => StepOutcome.err "Tool foo not found.") 0 3 [] =
      { success := false, data := "Error: " ++ "Tool foo not found.", history := [] } :=
  element_and_tool_failures 7 (some "desc") (ActionResult.mk true "✅ Clicked element.")
    (fun _ => StepOutcome.ok "click_element_by_index" ⟨none, none⟩ "❌ failed") 0 2 []
    "click_element_by_index" ⟨none, none⟩ "❌ failed"
    defaultToolNames "foo"
    (fun _ => StepOutcome.err "Tool foo not found.") 0 3 [] "Tool foo not found."
    rfl (by decide) (by decide) rfl

/-- C7 counterexample: a step whose tool name does not resolve makes the
whole `execute` call return `success = false` with the thrown error as
`data` and an empty history: the failure message does not become an action
output in history and the loop does not continue. -/
theorem unknown_tool_terminates_counterexample :
    resolveTool defaultToolNames "foo" = Except.error "Tool foo not found." ∧
    execute (fun _ => StepOutcome.err "Tool foo not found.") 3 =
      { success := false, data := "Error: Tool foo not found.", history := [] } ∧
    (execute (fun _ => StepOutcome.err "Tool foo not found.") 3).history = [] := by
  refine ⟨rfl, rfl, rfl⟩

/-! ### Attribute filtering lemmas (C5) -/

/-- Association lookup finds the stored value under distinct keys. -/
theorem lookup_eq_of_mem_nodupkeys :
    ∀ (l : List (String × String)), (l.map Prod.fst).Nodup →
      ∀ k v, (k, v) ∈ l → l.lookup k = some v := by
  intro l
  induction l with
  | nil => simp
  | cons hd t ih =>
    obtain ⟨k0, v0⟩ := hd
    intro hnd k v hm
    simp only [List.map_cons, List.nodup_cons] at hnd
    rcases List.mem_cons.mp hm with he | ht
    · obtain ⟨hk, hv⟩ := Prod.mk.injEq .. ▸ he
      subst hk; subst hv
      simp [List.lookup]
    · have hk : k ≠ k0 := by
        intro h
        subst h
        exact hnd.1 (List.mem_map.mpr ⟨(k, v), ht, rfl⟩)
      have hb : (k == k0) = false := beq_eq_false_iff_ne.mpr hk
      simp only [List.lookup, hb]
      exact ih hnd.2 k v ht

/-- A key present in the association list has a `some` lookup. -/
theorem lookup_isSome_of_mem_keys :
    ∀ (l : List (String × String)) (k : String), k ∈ l.map Prod.fst →
      (l.lookup k).isSome := by
  intro l
  induction l with
  | nil => simp
  | cons hd t ih =>
    obtain ⟨k0, v0⟩ := hd
    intro k hm
    by_cases hk : k = k0
    · subst hk; simp [List.lookup]
    · have hb : (k == k0) = false := beq_eq_false_iff_ne.mpr hk
      simp only [List.lookup, hb]
      refine ih k ?_
      simpa [hk] using hm

/-- Invariant of the stage-1 fold: the accumulated keys stay distinct, come
from the processed allow-list keys, and carry trimmed source values. -/
theorem buildAttrs_aux (attrs : List (String × String)) :
    ∀ (ks : List String) (acc : List (String × String)),
      (acc.map Prod.fst).Nodup →
      (((ks.foldl (fun acc key =>
          if (acc.lookup key).isSome then acc
          else
            match attrs.lookup key with
            | some v => if jsTrim v = "" then acc else acc ++ [(key, jsTrim v)]
            | none => acc) acc).map Prod.fst).Nodup ∧
       ∀ kv ∈ ks.foldl (fun acc key =>
          if (acc.lookup key).isSome then acc
          else
            match attrs.lookup key with
            | some v => if jsTrim v = "" then acc else acc ++ [(key, jsTrim v)]
            | none => acc) acc, kv ∈ acc ∨ kv.1 ∈ ks) := by
  intro ks
  induction ks with
  | nil => intro acc h; exact ⟨h, fun kv hm => Or.inl hm⟩
  | cons key t ih =>
    intro acc hnd
    rw [List.foldl_cons]
    by_cases hs : (acc.lookup key).isSome
    · rw [if_pos hs]
      obtain ⟨h1, h2⟩ := ih acc hnd
      exact ⟨h1, fun kv hm => (h2 kv hm).imp id (List.mem_cons_of_mem key)⟩
    · rw [if_neg hs]
      rcases e : attrs.lookup key with _ | v
      · simp only [e]
        obtain ⟨h1, h2⟩ := ih acc hnd
        exact ⟨h1, fun kv hm => (h2 kv hm).imp id (List.mem_cons_of_mem key)⟩
      · simp only [e]
        by_cases ht : jsTrim v = ""
        · rw [if_pos ht]
          obtain ⟨h1, h2⟩ := ih acc hnd
          exact ⟨h1, fun kv hm => (h2 kv hm).imp id (List.mem_cons_of_mem key)⟩
        · rw [if_neg ht]
          have hkey : key ∉ acc.map Prod.fst := by
            intro hmem
            exact hs (lookup_isSome_of_mem_keys acc key hmem)
          have hnd2 : ((acc ++ [(key, jsTrim v)]).map Prod.fst).Nodup := by
            rw [List.map_append]
            refine List.Nodup.append hnd (by simp) ?_
            intro a ha hb
            simp only [List.map_cons, List.map_nil, List.mem_singleton] at hb
            subst hb
            exact hkey ha
          obtain ⟨h1, h2⟩ := ih (acc ++ [(key, jsTrim v)]) hnd2
          refine ⟨h1, fun kv hm => ?_⟩
          rcases h2 kv hm with hin | hks
          · rcases List.mem_append.mp hin with h | h
            · exact Or.inl h
            · simp only [List.mem_singleton] at h
              subst h
              exact Or.inr (List.mem_cons_self _ _)
          · exact Or.inr (List.mem_cons_of_mem key hks)

/-- Keys of the stage-1 result are distinct. -/
theorem buildAttrs_keys_nodup (ia : List String) (attrs : List (String × String)) :
    ((buildAttrsToInclude ia attrs).map Prod.fst).Nodup :=
  (buildAttrs_aux attrs ia [] (by simp)).1

/-- Every stage-1 entry's key comes from the allow-list. -/
theorem buildAttrs_keys_sub (ia : List String) (attrs : List (String × String)) :
    ∀ kv ∈ buildAttrsToInclude ia attrs, kv.1 ∈ ia := by
  intro kv hm
  rcases (buildAttrs_aux attrs ia [] (by simp)).2 kv hm with h | h
  · simp at h
  · exact h

/-- Flagged keys come from the processed key list. -/
theorem cktr_subset (A : List (String × String)) :
    ∀ (ks seen : List String), computeKeysToRemove A ks seen ⊆ ks := by
  intro ks
  induction ks with
  | nil => intro seen x h; simp [computeKeysToRemove] at h
  | cons k t ih =>
    intro seen x h
    rw [computeKeysToRemove] at h
    rcases e : A.lookup k with _ | v <;> simp only [e] at h
    · exact List.mem_cons_of_mem k (ih seen h)
    · by_cases hl : 5 < v.length
      · rw [if_pos hl] at h
        by_cases hv : v ∈ seen
        · rw [if_pos hv] at h
          rcases List.mem_cons.mp h with h | h
          · exact h ▸ List.mem_cons_self k t
          · exact List.mem_cons_of_mem k (ih seen h)
        · rw [if_neg hv] at h
          exact List.mem_cons_of_mem k (ih (v :: seen) h)
      · rw [if_neg hl] at h
        exact List.mem_cons_of_mem k (ih seen h)

/-- A key whose long value was already seen gets flagged. -/
theorem cktr_mem_of_seen (A : List (String × String)) :
    ∀ (ks seen : List String) (k v : String), k ∈ ks → A.lookup k = some v →
      5 < v.length → v ∈ seen → k ∈ computeKeysToRemove A ks seen := by
  intro ks
  induction ks with
  | nil => simp
  | cons h t ih =>
    intro seen k v hk hlk hlen hseen
    rw [computeKeysToRemove]
    rcases e : A.lookup h with _ | vh <;> simp only [e]
    · have hkh : k ≠ h := fun he => by rw [he, e] at hlk; exact Option.noConfusion hlk
      exact ih seen k v (List.mem_of_ne_of_mem hkh hk) hlk hlen hseen
    · by_cases hl : 5 < vh.length
      · rw [if_pos hl]
        by_cases hv : vh ∈ seen
        · rw [if_pos hv]
          by_cases hkh : k = h
          · exact hkh ▸ List.mem_cons_self _ _
          · exact List.mem_cons_of_mem h
              (ih seen k v (List.mem_of_ne_of_mem hkh hk) hlk hlen hseen)
        · rw [if_neg hv]
          by_cases hkh : k = h
          · exfalso
            rw [hkh, e] at hlk
            obtain rfl : vh = v := Option.some.injEq .. ▸ hlk
            exact hv hseen
          · exact ih (vh :: seen) k v (List.mem_of_ne_of_mem hkh hk) hlk hlen
              (List.mem_cons_of_mem vh hseen)
      · rw [if_neg hl]
        by_cases hkh : k = h
        · exfalso
          rw [hkh, e] at hlk
          obtain rfl : vh = v := Option.some.injEq .. ▸ hlk
          exact hl hlen
        · exact ih seen k v (List.mem_of_ne_of_mem hkh hk) hlk hlen hseen

/-- Two distinct keys carrying the same long value cannot both survive the
dedup pass: at least one gets flagged. -/
theorem cktr_or (A : List (String × String)) :
    ∀ (ks seen : List String) (k1 k2 v : String), k1 ∈ ks → k2 ∈ ks → k1 ≠ k2 →
      A.lookup k1 = some v → A.lookup k2 = some v → 5 < v.length →
      k1 ∈ computeKeysToRemove A ks seen ∨ k2 ∈ computeKeysToRemove A ks seen := by
  intro ks
  induction ks with
  | nil => simp
  | cons h t ih =>
    intro seen k1 k2 v hk1 hk2 hne hl1 hl2 hlen
    rw [computeKeysToRemove]
    rcases e : A.lookup h with _ | vh <;> simp only [e]
    · have h1 : k1 ≠ h := fun he => by rw [he, e] at hl1; exact Option.noConfusion hl1
      have h2 : k2 ≠ h := fun he => by rw [he, e] at hl2; exact Option.noConfusion hl2
      exact ih seen k1 k2 v (List.mem_of_ne_of_mem h1 hk1)
        (List.mem_of_ne_of_mem h2 hk2) hne hl1 hl2 hlen
    · by_cases hl : 5 < vh.length
      · rw [if_pos hl]
        by_cases hv : vh ∈ seen
        · rw [if_pos hv]
          by_cases e1 : k1 = h
          · exact Or.inl (e1 ▸ List.mem_cons_self _ _)
          by_cases e2 : k2 = h
          · exact Or.inr (e2 ▸ List.mem_cons_self _ _)
          exact (ih seen k1 k2 v (List.mem_of_ne_of_mem e1 hk1)
            (List.mem_of_ne_of_mem e2 hk2) hne hl1 hl2 hlen).imp
            (List.mem_cons_of_mem h) (List.mem_cons_of_mem h)
        · rw [if_neg hv]
          by_cases e1 : k1 = h
          · subst e1
            obtain rfl : vh = v := by rw [e] at hl1; exact (Option.some.injEq .. ▸ hl1)
            refine Or.inr (cktr_mem_of_seen A t (vh :: seen) k2 vh ?_ hl2 hlen
              (List.mem_cons_self _ _))
            exact List.mem_of_ne_of_mem (fun he => hne (he ▸ rfl)) hk2
          by_cases e2 : k2 = h
          · subst e2
            obtain rfl : vh = v := by rw [e] at hl2; exact (Option.some.injEq .. ▸ hl2)
            refine Or.inl (cktr_mem_of_seen A t (vh :: seen) k1 vh ?_ hl1 hlen
              (List.mem_cons_self _ _))
            exact List.mem_of_ne_of_mem e1 hk1
          exact ih (vh :: seen) k1 k2 v (List.mem_of_ne_of_mem e1 hk1)
            (List.mem_of_ne_of_mem e2 hk2) hne hl1 hl2 hlen
      · rw [if_neg hl]
        have e1 : k1 ≠ h := by
          intro he
          rw [he, e] at hl1
          obtain rfl : vh = v := Option.some.injEq .. ▸ hl1
          exact hl hlen
        have e2 : k2 ≠ h := by
          intro he
          rw [he, e] at hl2
          obtain rfl : vh = v := Option.some.injEq .. ▸ hl2
          exact hl hlen
        exact ih seen k1 k2 v (List.mem_of_ne_of_mem e1 hk1)
          (List.mem_of_ne_of_mem e2 hk2) hne hl1 hl2 hlen

/-- Only keys with a long value get flagged. -/
theorem cktr_long (A : List (String × String)) :
    ∀ (ks seen : List String) (k : String), k ∈ computeKeysToRemove A ks seen →
      ∃ v, A.lookup k = some v ∧ 5 < v.length := by
  intro ks
  induction ks with
  | nil => intro seen k h; simp [computeKeysToRemove] at h
  | cons h t ih =>
    intro seen k hm
    rw [computeKeysToRemove] at hm
    rcases e : A.lookup h with _ | vh <;> simp only [e] at hm
    · exact ih seen k hm
    · by_cases hl : 5 < vh.length
      · rw [if_pos hl] at hm
        by_cases hv : vh ∈ seen
        · rw [if_pos hv] at hm
          rcases List.mem_cons.mp hm with rfl | hm
          · exact ⟨vh, e, hl⟩
          · exact ih seen k hm
        · rw [if_neg hv] at hm
          exact ih (vh :: seen) k hm
      · rw [if_neg hl] at hm
        exact ih seen k hm

/-- Survival characterization of the dedup pass over a duplicate-free key
list: a key with a long value survives exactly when its value is fresh and
it is the first key in order whose stage-1 value equals that value. -/
theorem cktr_not_mem_iff (A : List (String × String)) :
    ∀ (ks seen : List String) (k v : String), ks.Nodup → k ∈ ks →
      A.lookup k = some v → 5 < v.length →
      (k ∉ computeKeysToRemove A ks seen ↔
        (v ∉ seen ∧ ks.find? (fun k3 => A.lookup k3 == some v) = some k)) := by
  intro ks
  induction ks with
  | nil => simp
  | cons h t ih =>
    intro seen k v hnd hk hlk hlen
    rw [List.nodup_cons] at hnd
    rw [computeKeysToRemove]
    by_cases hkh : k = h
    · subst hkh
      have hp : (A.lookup k == some v) = true := by rw [hlk]; simp
      simp only [List.find?, hp, cond_true]
      simp only [hlk, if_pos hlen]
      by_cases hv : v ∈ seen
      · rw [if_pos hv]
        simp [hv]
      · rw [if_neg hv]
        have hnm : k ∉ computeKeysToRemove A t (v :: seen) := by
          intro hmem
          exact hnd.1 (cktr_subset A t (v :: seen) hmem)
        simp [hnm, hv]
    · have hkt : k ∈ t := List.mem_of_ne_of_mem hkh hk
      rcases e : A.lookup h with _ | vh <;> simp only [e]
      · have hp : (A.lookup h == some v) = false := by
          rw [e, beq_eq_false_iff_ne]
          exact fun hc => Option.noConfusion hc
        simp only [List.find?, hp, cond_false]
        exact ih seen k v hnd.2 hkt hlk hlen
      · by_cases hl : 5 < vh.length
        · rw [if_pos hl]
          by_cases hv : vh ∈ seen
          · rw [if_pos hv]
            by_cases hvv : vh = v
            · subst hvv
              have hmem : k ∈ computeKeysToRemove A t seen :=
                cktr_mem_of_seen A t seen k vh hkt hlk hlen hv
              have hp : (A.lookup h == some vh) = true := by rw [e]; simp
              simp only [List.find?, hp, cond_true]
              simp [List.mem_cons, hmem, hv]
            · have hp : (A.lookup h == some v) = false := by
                rw [e, beq_eq_false_iff_ne]
                exact fun hc => hvv (Option.some.injEq .. ▸ hc)
              simp only [List.find?, hp, cond_false]
              rw [← ih seen k v hnd.2 hkt hlk hlen]
              simp [List.mem_cons, hkh]
          · rw [if_neg hv]
            by_cases hvv : vh = v
            · subst hvv
              have hmem : k ∈ computeKeysToRemove A t (vh :: seen) :=
                cktr_mem_of_seen A t (vh :: seen) k vh hkt hlk hlen
                  (List.mem_cons_self _ _)
              have hp : (A.lookup h == some vh) = true := by rw [e]; simp
              simp only [List.find?, hp, cond_true]
              simp [hmem, hkh, Ne.symm hkh]
            · have hp : (A.lookup h == some v) = false := by
                rw [e, beq_eq_false_iff_ne]
                exact fun hc => hvv (Option.some.injEq .. ▸ hc)
              simp only [List.find?, hp, cond_false]
              rw [ih (vh :: seen) k v hnd.2 hkt hlk hlen]
              have hvs : (v ∉ vh :: seen) ↔ v ∉ seen := by
                constructor
                · intro hnv hvse
                  exact hnv (List.mem_cons_of_mem _ hvse)
                · intro hnv hc
                  rcases List.mem_cons.mp hc with hc1 | hc2
                  · exact hvv hc1.symm
                  · exact hnv hc2
              rw [hvs]
        · rw [if_neg hl]
          have hvv : vh ≠ v := fun he => hl (he ▸ hlen)
          have hp : (A.lookup h == some v) = false := by
            rw [e, beq_eq_false_iff_ne]
            exact fun hc => hvv (Option.some.injEq .. ▸ hc)
          simp only [List.find?, hp, cond_false]
          exact ih seen k v hnd.2 hkt hlk hlen

/-- Stage 4 only removes entries. -/
theorem removeTextDup_sub (text : String) :
    ∀ (names : List String) (l : List (String × String)) (x : String × String),
      x ∈ names.foldl (fun acc attr =>
        match acc.lookup attr with
        | some v =>
          if v ≠ "" ∧ jsTrim (jsToLower v) = jsTrim (jsToLower text) then
            acc.filter (fun kv => kv.1 ≠ attr)
          else acc
        | none => acc) l → x ∈ l := by
  intro names
  induction names with
  | nil => intro l x h; simpa using h
  | cons a t ih =>
    intro l x h
    rw [List.foldl_cons] at h
    have h2 := ih _ x h
    rcases e : l.lookup a with _ | v
    · simpa only [e] using h2
    · simp only [e] at h2
      by_cases hc : v ≠ "" ∧ jsTrim (jsToLower v) = jsTrim (jsToLower text)
      · rw [if_pos hc] at h2
        exact (List.mem_filter.mp h2).1
      · rw [if_neg hc] at h2
        exact h2

/-- Stage 3 only removes entries. -/
theorem removeRole_sub (tagName : String) (l : List (String × String))
    (x : String × String) (h : x ∈ removeRoleIfTag tagName l) : x ∈ l := by
  unfold removeRoleIfTag at h
  split_ifs at h
  · exact (List.mem_filter.mp h).1
  · exact h

/-- Stage 2 only removes entries. -/
theorem dedup_sub (ia : List String) (A : List (String × String))
    (x : String × String) (h : x ∈ dedupAttrValues ia A) : x ∈ A := by
  simp only [dedupAttrValues] at h
  split_ifs at h
  · exact (List.mem_filter.mp h).1
  · exact h

/-- Every retained attribute is in the dedup-stage result. -/
theorem mem_filterAttributes_sub (ia : List String) (attrs : List (String × String))
    (tagName text : String) (x : String × String)
    (h : x ∈ filterAttributes ia attrs tagName text) :
    x ∈ dedupAttrValues ia (buildAttrsToInclude ia attrs) := by
  unfold filterAttributes at h
  unfold removeTextDuplicateAttrs at h
  exact removeRole_sub tagName _ x (removeTextDup_sub text _ _ x h)

/-- Two distinct members force length at least 2. -/
theorem one_lt_length_of_two_mem (l : List String) (a b : String)
    (ha : a ∈ l) (hb : b ∈ l) (hne : a ≠ b) : 1 < l.length := by
  rcases l with _ | ⟨x, _ | ⟨y, t⟩⟩
  · simp at ha
  · simp only [List.mem_singleton] at ha hb
    exact absurd (ha.trans hb.symm) hne
  · simp only [List.length_cons]
    omega

/-- A member of a list of length at most one determines the list. -/
theorem eq_singleton_of_mem_short (l : List String) (k : String)
    (h1 : l.length ≤ 1) (h2 : k ∈ l) : l = [k] := by
  rcases l with _ | ⟨x, _ | ⟨y, t⟩⟩
  · simp at h2
  · simp only [List.mem_singleton] at h2
    rw [h2]
  · simp only [List.length_cons] at h1
    omega

/-- C5 (amended): no two retained attributes on one serialized element
share a value of length > 5; when the combined allow-list (caller names
followed by the defaults) has no repeated name, the dedup stage keeps, for
each long value, exactly the first carrier in allow-list order and keeps
every attribute with a short value.  (With a repeated allow-list name the
first-occurrence promise fails: see the counterexample.) -/
theorem attr_dedup_spec (ia : List String) (attrs : List (String × String))
    (tagName text k1 v1 k2 v2 : String)
    (h1 : (k1, v1) ∈ filterAttributes ia attrs tagName text)
    (h2 : (k2, v2) ∈ filterAttributes ia attrs tagName text)
    (hne : k1 ≠ k2) (hlen : 5 < v1.length) :
    v1 ≠ v2 ∧
    (∀ k v, ia.Nodup → 5 < v.length →
      ((k, v) ∈ dedupAttrValues ia (buildAttrsToInclude ia attrs) ↔
        (k, v) ∈ buildAttrsToInclude ia attrs ∧
          (orderedIncludeKeys ia (buildAttrsToInclude ia attrs)).find?
            (fun k3 => (buildAttrsToInclude ia attrs).lookup k3 == some v) = some k)) ∧
    (∀ k v, (k, v) ∈ buildAttrsToInclude ia attrs → v.length ≤ 5 →
      (k, v) ∈ dedupAttrValues ia (buildAttrsToInclude ia attrs)) := by
  have hnodupA := buildAttrs_keys_nodup ia attrs
  refine ⟨?_, ?_, ?_⟩
  · intro hveq
    have m1 := mem_filterAttributes_sub ia attrs tagName text (k1, v1) h1
    have m2 := mem_filterAttributes_sub ia attrs tagName text (k2, v2) h2
    have mA1 := dedup_sub ia _ (k1, v1) m1
    have mA2 := dedup_sub ia _ (k2, v2) m2
    have l1 := lookup_eq_of_mem_nodupkeys _ hnodupA k1 v1 mA1
    have l2 := lookup_eq_of_mem_nodupkeys _ hnodupA k2 v2 mA2
    rw [← hveq] at l2
    have ho1 : k1 ∈ orderedIncludeKeys ia (buildAttrsToInclude ia attrs) := by
      refine List.mem_filter.mpr ⟨buildAttrs_keys_sub ia attrs (k1, v1) mA1, ?_⟩
      simp [l1]
    have ho2 : k2 ∈ orderedIncludeKeys ia (buildAttrsToInclude ia attrs) := by
      refine List.mem_filter.mpr ⟨buildAttrs_keys_sub ia attrs (k2, v2) mA2, ?_⟩
      simp [l2]
    have hg := one_lt_length_of_two_mem _ k1 k2 ho1 ho2 hne
    simp only [dedupAttrValues] at m1 m2
    rw [if_pos hg] at m1 m2
    have hr1 : k1 ∉ computeKeysToRemove (buildAttrsToInclude ia attrs)
        (orderedIncludeKeys ia (buildAttrsToInclude ia attrs)) [] := by
      simpa using (List.mem_filter.mp m1).2
    have hr2 : k2 ∉ computeKeysToRemove (buildAttrsToInclude ia attrs)
        (orderedIncludeKeys ia (buildAttrsToInclude ia attrs)) [] := by
      simpa using (List.mem_filter.mp m2).2
    rcases cktr_or (buildAttrsToInclude ia attrs) _ [] k1 k2 v1 ho1 ho2 hne l1 l2 hlen with
      hr | hr
    · exact hr1 hr
    · exact hr2 hr
  · intro k v hiaN hlv
    have hnodupO : (orderedIncludeKeys ia (buildAttrsToInclude ia attrs)).Nodup :=
      List.Nodup.filter _ hiaN
    by_cases hg : 1 < (orderedIncludeKeys ia (buildAttrsToInclude ia attrs)).length
    · constructor
      · intro hm
        have hmA := dedup_sub ia _ (k, v) hm
        have hlk := lookup_eq_of_mem_nodupkeys _ hnodupA k v hmA
        have hko : k ∈ orderedIncludeKeys ia (buildAttrsToInclude ia attrs) := by
          refine List.mem_filter.mpr ⟨buildAttrs_keys_sub ia attrs (k, v) hmA, ?_⟩
          simp [hlk]
        simp only [dedupAttrValues] at hm
        rw [if_pos hg] at hm
        have hnotR : k ∉ computeKeysToRemove (buildAttrsToInclude ia attrs)
            (orderedIncludeKeys ia (buildAttrsToInclude ia attrs)) [] := by
          simpa using (List.mem_filter.mp hm).2
        have hc := (cktr_not_mem_iff (buildAttrsToInclude ia attrs) _ [] k v
          hnodupO hko hlk hlv).mp hnotR
        exact ⟨hmA, hc.2⟩
      · rintro ⟨hmA, hfind⟩
        have hlk := lookup_eq_of_mem_nodupkeys _ hnodupA k v hmA
        have hko : k ∈ orderedIncludeKeys ia (buildAttrsToInclude ia attrs) := by
          refine List.mem_filter.mpr ⟨buildAttrs_keys_sub ia attrs (k, v) hmA, ?_⟩
          simp [hlk]
        have hnotR := (cktr_not_mem_iff (buildAttrsToInclude ia attrs) _ [] k v
          hnodupO hko hlk hlv).mpr ⟨by simp, hfind⟩
        simp only [dedupAttrValues]
        rw [if_pos hg]
        refine List.mem_filter.mpr ⟨hmA, ?_⟩
        simpa using hnotR
    · have hd : dedupAttrValues ia (buildAttrsToInclude ia attrs)
          = buildAttrsToInclude ia attrs := by
        simp only [dedupAttrValues]
        rw [if_neg hg]
      rw [hd]
      constructor
      · intro hmA
        have hlk := lookup_eq_of_mem_nodupkeys _ hnodupA k v hmA
        have hko : k ∈ orderedIncludeKeys ia (buildAttrsToInclude ia attrs) := by
          refine List.mem_filter.mpr ⟨buildAttrs_keys_sub ia attrs (k, v) hmA, ?_⟩
          simp [hlk]
        have hsingle := eq_singleton_of_mem_short _ k (by omega) hko
        refine ⟨hmA, ?_⟩
        rw [hsingle]
        have hp : ((buildAttrsToInclude ia attrs).lookup k == some v) = true := by
          simp [hlk]
        simp [List.find?, hp]
      · exact fun h => h.1
  · intro k v hmA hlv
    have hlk := lookup_eq_of_mem_nodupkeys _ hnodupA k v hmA
    by_cases hg : 1 < (orderedIncludeKeys ia (buildAttrsToInclude ia attrs)).length
    · have hnotR : k ∉ computeKeysToRemove (buildAttrsToInclude ia attrs)
          (orderedIncludeKeys ia (buildAttrsToInclude ia attrs)) [] := by
        intro hR
        obtain ⟨w, hl2, hlen2⟩ := cktr_long (buildAttrsToInclude ia attrs) _ [] k hR
        rw [hlk] at hl2
        obtain rfl : v = w := Option.some.injEq .. ▸ hl2
        omega
      simp only [dedupAttrValues]
      rw [if_pos hg]
      refine List.mem_filter.mpr ⟨hmA, ?_⟩
      simpa using hnotR
    · simp only [dedupAttrValues]
      rw [if_neg hg]
      exact hmA

/-- Witness for C5 on an element carrying two retained long-valued
attributes. -/
theorem attr_dedup_spec_witness :
    "abcdefg" ≠ "1234567" ∧
    (∀ k v, DEFAULT_INCLUDE_ATTRIBUTES.Nodup → 5 < v.length →
      ((k, v) ∈ dedupAttrValues DEFAULT_INCLUDE_ATTRIBUTES
          (buildAttrsToInclude DEFAULT_INCLUDE_ATTRIBUTES
            [("title", "abcdefg"), ("name", "1234567")]) ↔
        (k, v) ∈ buildAttrsToInclude DEFAULT_INCLUDE_ATTRIBUTES
            [("title", "abcdefg"), ("name", "1234567")] ∧
          (orderedIncludeKeys DEFAULT_INCLUDE_ATTRIBUTES
            (buildAttrsToInclude DEFAULT_INCLUDE_ATTRIBUTES
              [("title", "abcdefg"), ("name", "1234567")])).find?
            (fun k3 => (buildAttrsToInclude DEFAULT_INCLUDE_ATTRIBUTES
              [("title", "abcdefg"), ("name", "1234567")]).lookup k3 == some v) = some k)) ∧
    (∀ k v, (k, v) ∈ buildAttrsToInclude DEFAULT_INCLUDE_ATTRIBUTES
        [("title", "abcdefg"), ("name", "1234567")] → v.length ≤ 5 →
      (k, v) ∈ dedupAttrValues DEFAULT_INCLUDE_ATTRIBUTES
        (buildAttrsToInclude DEFAULT_INCLUDE_ATTRIBUTES
          [("title", "abcdefg"), ("name", "1234567")])) :=
  attr_dedup_spec DEFAULT_INCLUDE_ATTRIBUTES
    [("title", "abcdefg"), ("name", "1234567")] "div" ""
    "title" "abcdefg" "name" "1234567"
    (by decide) (by decide) (by decide) (by decide)

/-- C5 counterexample: when the caller-supplied names repeat a default
allow-list name (here `id`), the dedup loop sees the same key twice,
treats the second occurrence as a duplicate of the first, and deletes the
attribute although it is the only carrier of its long value — the first
occurrence in allow-list order is NOT kept. -/
theorem attr_dedup_counterexample :
    filterAttributes ("id" :: DEFAULT_INCLUDE_ATTRIBUTES) [("id", "abcdef")] "a" "" = [] ∧
    ("id", "abcdef") ∉
      filterAttributes ("id" :: DEFAULT_INCLUDE_ATTRIBUTES) [("id", "abcdef")] "a" "" ∧
    ("id", "abcdef") ∈ buildAttrsToInclude ("id" :: DEFAULT_INCLUDE_ATTRIBUTES)
      [("id", "abcdef")] ∧
    5 < "abcdef".length := by
  refine ⟨by decide, by decide, by decide, by decide⟩

/-! ### Extraction-pass lemmas (C3, C9) -/

/-- `nodeOK` is monotone in the index window. -/
theorem nodeOK_mono (lo lo2 hi hi2 : Nat) (p : String × DomNode)
    (h1 : lo2 ≤ lo) (h2 : hi ≤ hi2) (h : nodeOK lo hi p) : nodeOK lo2 hi2 p := by
  obtain ⟨id, n⟩ := p
  cases n with
  | textNode t v => trivial
  | elemNode d =>
    obtain ⟨hm, hl, hidx⟩ := h
    refine ⟨hm, hl, fun i hi0 => ?_⟩
    obtain ⟨a, b, c⟩ := hidx i hi0
    exact ⟨le_trans h1 a, lt_of_lt_of_le b h2, c⟩

/-- Consecutive unit-step ranges concatenate. -/
theorem range1_append (a m n : Nat) :
    List.range' a m ++ List.range' (a + m) n = List.range' a (m + n) := by
  induction m generalizing a with
  | zero => simp
  | succ m ih =>
    rw [List.range'_succ, show a + (m + 1) = (a + 1) + m from by omega,
      List.cons_append, ih (a + 1), show m + 1 + n = (m + n) + 1 from by omega,
      List.range'_succ]

/-- Consecutive unit-step ranges glue along a middle point. -/
theorem range1_glue (a b c : Nat) (h1 : a ≤ b) (h2 : b ≤ c) :
    List.range' a (b - a) ++ List.range' b (c - b) = List.range' a (c - a) := by
  have h := range1_append a (b - a) (c - b)
  rw [show a + (b - a) = b from by omega] at h
  rw [h, show b - a + (c - b) = c - a from by omega]

/-- The segment invariant is reflexive. -/
theorem SegSpec_refl (st : BuildState) : SegSpec st st := by
  refine ⟨le_rfl, by simp, [], by simp, by simp [mapIndices], ?_⟩
  intro p hp
  simp at hp

/-- The segment invariant composes. -/
theorem SegSpec_trans {st1 st2 st3 : BuildState}
    (h12 : SegSpec st1 st2) (h23 : SegSpec st2 st3) : SegSpec st1 st3 := by
  obtain ⟨hle12, hlog12, Δ1, hmap1, hperm1, hok1⟩ := h12
  obtain ⟨hle23, hlog23, Δ2, hmap2, hperm2, hok2⟩ := h23
  refine ⟨le_trans hle12 hle23, ?_, Δ1 ++ Δ2, ?_, ?_, ?_⟩
  · rw [hlog23, hlog12, List.append_assoc, range1_glue st1.hi st2.hi st3.hi hle12 hle23]
  · rw [hmap2, hmap1, List.append_assoc]
  · rw [mapIndices, List.filterMap_append, ← range1_glue st1.hi st2.hi st3.hi hle12 hle23]
    exact List.Perm.append hperm1 hperm2
  · intro p hp
    rcases List.mem_append.mp hp with h | h
    · exact nodeOK_mono st1.hi st1.hi st2.hi st3.hi p le_rfl hle23 (hok1 p h)
    · exact nodeOK_mono st2.hi st1.hi st3.hi st3.hi p hle12 le_rfl (hok2 p h)

/-- Appending one text entry preserves the segment invariant. -/
theorem SegSpec_pushText (st : BuildState) (id t : String) :
    SegSpec st { st with
                 idCur := st.idCur + 1,
                 map := st.map ++ [(id, DomNode.textNode t true)] } := by
  refine ⟨le_rfl, by simp, [(id, DomNode.textNode t true)], by simp, ?_, ?_⟩
  · simp [mapIndices, hIdxOf]
  · intro p hp
    simp only [List.mem_singleton] at hp
    subst hp
    trivial

/-- Appending the element entry that `buildDomTree` records at the end of
one call extends a segment: either the element got the segment's first
index `st.hi` (and the children were walked with the counter already
advanced), or it got no index (and the children were walked in place). -/
theorem SegSpec_push_elem (st r2 : BuildState) (id : String) (d : ElemData)
    (hd1 : d.marker = d.highlightIndex)
    (hd2 : d.locator = none)
    (hd3 : ∀ i, d.highlightIndex = some i → i = st.hi ∧ d.isInteractive = true)
    (hcase : (d.highlightIndex = some st.hi ∧
        SegSpec { st with hi := st.hi + 1, stampLog := st.stampLog ++ [st.hi] } r2)
      ∨ (d.highlightIndex = none ∧ SegSpec st r2)) :
    SegSpec st { r2 with
                 idCur := r2.idCur + 1,
                 map := r2.map ++ [(id, DomNode.elemNode d)] } := by
  rcases hcase with ⟨hidx, hle, hlog, Δk, hmap, hperm, hok⟩ | ⟨hidx, hle, hlog, Δk, hmap, hperm, hok⟩
  · dsimp only at hle hlog hmap hperm hok
    refine ⟨?_, ?_, Δk ++ [(id, DomNode.elemNode d)], ?_, ?_, ?_⟩
    · show st.hi ≤ r2.hi
      omega
    · show r2.stampLog = st.stampLog ++ List.range' st.hi (r2.hi - st.hi)
      rw [hlog, List.append_assoc]
      congr 1
      rw [List.singleton_append,
        show r2.hi - st.hi = (r2.hi - (st.hi + 1)) + 1 from by omega,
        List.range'_succ]
    · show r2.map ++ [(id, DomNode.elemNode d)] = st.map ++ (Δk ++ [(id, DomNode.elemNode d)])
      rw [hmap, List.append_assoc]
    · show (mapIndices (Δk ++ [(id, DomNode.elemNode d)])).Perm
        (List.range' st.hi (r2.hi - st.hi))
      rw [mapIndices, List.filterMap_append]
      have hsingle : List.filterMap (fun p => hIdxOf p.2) [(id, DomNode.elemNode d)]
          = [st.hi] := by
        simp [hIdxOf, hidx]
      rw [hsingle, show r2.hi - st.hi = (r2.hi - (st.hi + 1)) + 1 from by omega,
        List.range'_succ]
      exact (List.perm_append_comm).trans (List.Perm.cons _ hperm)
    · intro p hp
      rcases List.mem_append.mp hp with h | h
      · exact nodeOK_mono (st.hi + 1) st.hi r2.hi r2.hi p (by omega) le_rfl (hok p h)
      · simp only [List.mem_singleton] at h
        subst h
        refine ⟨hd1, hd2, fun i hi => ?_⟩
        obtain ⟨hieq, hint⟩ := hd3 i hi
        subst hieq
        exact ⟨le_rfl, show st.hi < r2.hi by omega, hint⟩
  · refine ⟨hle, ?_, Δk ++ [(id, DomNode.elemNode d)], ?_, ?_, ?_⟩
    · show r2.stampLog = st.stampLog ++ List.range' st.hi (r2.hi - st.hi)
      exact hlog
    · show r2.map ++ [(id, DomNode.elemNode d)] = st.map ++ (Δk ++ [(id, DomNode.elemNode d)])
      rw [hmap, List.append_assoc]
    · show (mapIndices (Δk ++ [(id, DomNode.elemNode d)])).Perm
        (List.range' st.hi (r2.hi - st.hi))
      rw [mapIndices, List.filterMap_append]
      have hsingle : List.filterMap (fun p => hIdxOf p.2) [(id, DomNode.elemNode d)]
          = [] := by
        simp [hIdxOf, hidx]
      rw [hsingle, List.append_nil]
      exact hperm
    · intro p hp
      rcases List.mem_append.mp hp with h | h
      · exact hok p h
      · simp only [List.mem_singleton] at h
        subst h
        refine ⟨hd1, hd2, fun i hi => ?_⟩
        rw [hidx] at hi
        exact Option.noConfusion hi

mutual
/-- Walking one element from state `st` satisfies the segment invariant. -/
theorem buildNode_spec (vpExp : Int) (n : DomInput) (st : BuildState) :
    SegSpec st (buildNode vpExp n st).2 := by
  cases n with
  | text content =>
    simp only [buildNode]
    exact SegSpec_refl st
  | elem tag attrs visible topRaw inVpRaw interactive scroll children =>
    by_cases htag : tag ∈ skipTags
    · simp only [buildNode, if_pos htag]
      exact SegSpec_refl st
    · by_cases hassign : assignFlag vpExp visible topRaw inVpRaw interactive = true
      · have hinter : interFlag vpExp visible topRaw interactive = true := by
          have h := hassign
          rw [assignFlag] at h
          simp only [Bool.and_eq_true] at h
          exact h.1
        have hkids := buildKids_spec vpExp children
          { st with hi := st.hi + 1, stampLog := st.stampLog ++ [st.hi] }
        have happ := SegSpec_push_elem st
          (buildKids vpExp children
            { st with hi := st.hi + 1, stampLog := st.stampLog ++ [st.hi] }).2
          (toString (buildKids vpExp children
            { st with hi := st.hi + 1, stampLog := st.stampLog ++ [st.hi] }).2.idCur)
          { tagName := tag, attributes := attrs,
            children := (buildKids vpExp children
              { st with hi := st.hi + 1, stampLog := st.stampLog ++ [st.hi] }).1,
            isVisible := visible, isTopElement := isTopFlag vpExp visible topRaw,
            isInViewport := inVpFlag vpExp visible inVpRaw,
            isInteractive := interFlag vpExp visible topRaw interactive,
            highlightIndex := some st.hi, marker := some st.hi, locator := none,
            scrollData := scroll }
          rfl rfl
          (by
            intro i hi
            refine ⟨(Option.some.inj hi).symm, hinter⟩)
          (Or.inl ⟨rfl, hkids⟩)
        simpa [buildNode, htag, hassign] using happ
      · have hkids := buildKids_spec vpExp children st
        have happ := SegSpec_push_elem st
          (buildKids vpExp children st).2
          (toString (buildKids vpExp children st).2.idCur)
          { tagName := tag, attributes := [],
            children := (buildKids vpExp children st).1,
            isVisible := visible, isTopElement := isTopFlag vpExp visible topRaw,
            isInViewport := inVpFlag vpExp visible inVpRaw,
            isInteractive := interFlag vpExp visible topRaw interactive,
            highlightIndex := none, marker := none, locator := none,
            scrollData := scroll }
          rfl rfl
          (by intro i hi; exact Option.noConfusion hi)
          (Or.inr ⟨rfl, hkids⟩)
        simpa [buildNode, htag, hassign] using happ

/-- Walking a child list from state `st` satisfies the segment
invariant. -/
theorem buildKids_spec (vpExp : Int) (l : DomForest) (st : BuildState) :
    SegSpec st (buildKids vpExp l st).2 := by
  cases l with
  | nil =>
    simp only [buildKids]
    exact SegSpec_refl st
  | cons c rest =>
    cases c with
    | text content =>
      by_cases ht : jsTrim content = ""
      · simp only [buildKids, if_pos ht]
        exact buildKids_spec vpExp rest st
      · simp only [buildKids, if_neg ht]
        exact SegSpec_trans (SegSpec_pushText st (toString st.idCur) (jsTrim content))
          (buildKids_spec vpExp rest
            { st with idCur := st.idCur + 1,
                      map := st.map ++ [(toString st.idCur,
                        DomNode.textNode (jsTrim content) true)] })
    | elem tag attrs visible topRaw inVpRaw interactive scroll children =>
      rcases hb : buildNode vpExp
        (DomInput.elem tag attrs visible topRaw inVpRaw interactive scroll children) st
        with ⟨oid, st1⟩
      have h1 : SegSpec st st1 := by
        have h := buildNode_spec vpExp
          (DomInput.elem tag attrs visible topRaw inVpRaw interactive scroll children) st
        rw [hb] at h
        exact h
      cases oid with
      | some id =>
        simp only [buildKids, hb]
        exact SegSpec_trans h1 (buildKids_spec vpExp rest st1)
      | none =>
        simp only [buildKids, hb]
        exact SegSpec_trans h1 (buildKids_spec vpExp rest st1)
end

/-- Materialisation preserves the highlight index. -/
theorem hIdxOf_materialize (n : DomNode) : hIdxOf (materializeNode n) = hIdxOf n := by
  cases n with
  | textNode t v => rfl
  | elemNode d =>
    rcases hd : d.highlightIndex with _ | i
    · simp [materializeNode, hd, hIdxOf]
    · by_cases hi : d.isInteractive <;> simp [materializeNode, hd, hi, hIdxOf]

/-- Materialisation preserves the stamped marker. -/
theorem markerOf_materialize (n : DomNode) :
    markerOf (materializeNode n) = markerOf n := by
  cases n with
  | textNode t v => rfl
  | elemNode d =>
    rcases hd : d.highlightIndex with _ | i
    · simp [materializeNode, hd, markerOf]
    · by_cases hi : d.isInteractive <;> simp [materializeNode, hd, hi, markerOf]

/-- Materialising the whole map leaves the index list unchanged. -/
theorem mapIndices_materialize (m : List (String × DomNode)) :
    mapIndices (m.map (fun p => (p.1, materializeNode p.2))) = mapIndices m := by
  induction m with
  | nil => rfl
  | cons p t ih =>
    simp only [List.map_cons, mapIndices, List.filterMap_cons] at *
    rw [hIdxOf_materialize]
    rcases hIdxOf p.2 with _ | i <;> simp [ih]

/-- When markers mirror highlight indices entrywise, counting marker hits
equals counting the index in the index list. -/
theorem countP_marker_eq_count (m : List (String × DomNode))
    (h : ∀ p ∈ m, markerOf p.2 = hIdxOf p.2) (i : Nat) :
    m.countP (fun p => markerOf p.2 == some i) = (mapIndices m).count i := by
  induction m with
  | nil => rfl
  | cons p t ih =>
    have hp := h p (List.mem_cons_self p t)
    have ht := fun q hq => h q (List.mem_cons_of_mem p hq)
    rw [List.countP_cons, mapIndices, List.filterMap_cons]
    rcases he : hIdxOf p.2 with _ | j
    · have hm : (markerOf p.2 == some i) = false := by
        rw [hp, he]
        rfl
      rw [hm]
      simp only [if_neg Bool.false_ne_true]
      rw [ih ht, mapIndices]
      simp
    · by_cases hij : j = i
      · subst hij
        have hm : (markerOf p.2 == some j) = true := by
          rw [hp, he]
          simp
        rw [hm]
        simp only [if_pos rfl]
        rw [ih ht, mapIndices, List.count_cons_self]
        simp
      · have hm : (markerOf p.2 == some i) = false := by
          rw [hp, he]
          simp [hij]
        rw [hm]
        simp only [if_neg Bool.false_ne_true]
        rw [ih ht, mapIndices, List.count_cons_of_ne (fun hc => hij hc.symm)]
        simp

/-- C3: in one extraction pass the stamp trace is exactly `0, 1, …, N-1`
(indices are assigned monotonically, in DOM order, with no gaps), the
indices recorded in the snapshot map are a permutation of `[0, N)`, every
interactive node carrying index `i` holds the marker `i` and — after the
second phase of `getFlatTree` — a non-null locator built from the marker
query `[data-pw-agent-index="i"]`, and each index `i < N` is stamped on
exactly one node, so every LLM-visible index resolves to exactly one
drivable handle. -/
theorem extraction_index_handles (vpExp : Int) (body : DomInput) :
    (buildRunState vpExp body).stampLog = List.range (buildRunState vpExp body).hi ∧
    (mapIndices (getFlatTree vpExp body).map).Perm
      (List.range (buildRunState vpExp body).hi) ∧
    (∀ id d, (id, DomNode.elemNode d) ∈ (getFlatTree vpExp body).map →
      ∀ i, d.highlightIndex = some i →
        i < (buildRunState vpExp body).hi ∧ d.isInteractive = true ∧
          d.marker = some i ∧ d.locator = some (markerQuery i)) ∧
    (∀ i, i < (buildRunState vpExp body).hi →
      (getFlatTree vpExp body).map.countP (fun p => markerOf p.2 == some i) = 1) := by
  obtain ⟨hle, hlog, Δ, hmap, hperm, hok⟩ := buildNode_spec vpExp body initBuildState
  have i0 : initBuildState.hi = 0 := rfl
  have i1 : initBuildState.stampLog = ([] : List Nat) := rfl
  have i2 : initBuildState.map = ([] : List (String × DomNode)) := rfl
  rw [i0] at hlog hperm hok
  rw [i1] at hlog
  rw [i2] at hmap
  rw [Nat.sub_zero] at hlog hperm
  rw [List.nil_append] at hlog hmap
  have hrun : buildRunState vpExp body = (buildNode vpExp body initBuildState).2 := rfl
  have hft : (getFlatTree vpExp body).map
      = (buildNode vpExp body initBuildState).2.map.map
          (fun p => (p.1, materializeNode p.2)) := rfl
  have hidx : (mapIndices (getFlatTree vpExp body).map).Perm
      (List.range (buildRunState vpExp body).hi) := by
    rw [hft, mapIndices_materialize, hrun, hmap,
      List.range_eq_range' (buildNode vpExp body initBuildState).2.hi]
    exact hperm
  refine ⟨?_, hidx, ?_, ?_⟩
  · rw [hrun, hlog, List.range_eq_range' (buildNode vpExp body initBuildState).2.hi]
  · intro id d hmem i hi
    rw [hft] at hmem
    obtain ⟨p0, hp0, hpe⟩ := List.mem_map.mp hmem
    obtain ⟨id0, n0⟩ := p0
    obtain ⟨hid0, hnode⟩ := Prod.mk.injEq .. ▸ hpe
    cases n0 with
    | textNode t v => exact absurd hnode (by simp [materializeNode])
    | elemNode d0 =>
      rw [hmap] at hp0
      obtain ⟨hm0, hl0, hb0⟩ := hok (id0, DomNode.elemNode d0) hp0
      have hidx0 : d0.highlightIndex = some i := by
        have := hIdxOf_materialize (DomNode.elemNode d0)
        rw [hnode] at this
        simp only [hIdxOf] at this
        rw [hi] at this
        exact this.symm
      obtain ⟨_, hlt, hint⟩ := hb0 i hidx0
      have hmat : materializeNode (DomNode.elemNode d0)
          = DomNode.elemNode { d0 with locator := some (markerQuery i) } := by
        simp [materializeNode, hidx0, hint]
      rw [hmat] at hnode
      have hd : d = { d0 with locator := some (markerQuery i) } :=
        (DomNode.elemNode.injEq .. ▸ hnode).symm
      subst hd
      refine ⟨by rw [hrun]; exact hlt, hint, ?_, rfl⟩
      show d0.marker = some i
      rw [hm0, hidx0]
  · intro i hi
    have hmk : ∀ p ∈ (getFlatTree vpExp body).map, markerOf p.2 = hIdxOf p.2 := by
      intro p hp
      rw [hft] at hp
      obtain ⟨p0, hp0, hpe⟩ := List.mem_map.mp hp
      rw [hmap] at hp0
      obtain ⟨id0, n0⟩ := p0
      have : markerOf n0 = hIdxOf n0 := by
        cases n0 with
        | textNode t v => rfl
        | elemNode d0 =>
          obtain ⟨hm0, _, _⟩ := hok (id0, DomNode.elemNode d0) hp0
          exact hm0
      rw [← hpe]
      dsimp only
      rw [markerOf_materialize, hIdxOf_materialize]
      exact this
    rw [countP_marker_eq_count _ hmk i]
    rw [(hidx.count_eq i)]
    exact List.count_eq_one_of_mem (List.nodup_range _) (List.mem_range.mpr hi)

/-- Every selector-map entry is keyed by its node's own numeric highlight
index (so nodes without one are omitted). -/
theorem mem_getSelectorMap (ft : FlatDomTree) :
    ∀ q ∈ getSelectorMap ft, q.2.highlightIndex = some q.1 ∧ q.2.isInteractive = true := by
  intro q hq
  simp only [getSelectorMap] at hq
  obtain ⟨p, hp, hf⟩ := List.mem_filterMap.mp hq
  obtain ⟨pid, n⟩ := p
  cases n with
  | textNode t v => simp at hf
  | elemNode d =>
    by_cases hint : d.isInteractive
    · rcases hidx : d.highlightIndex with _ | i
      · simp [hint, hidx] at hf
      · simp only [hint, hidx, if_pos] at hf
        have hq2 : q = (i, d) := by
          cases hf
          rfl
        subst hq2
        exact ⟨hidx, hint⟩
    · simp [hint] at hf

/-- C9: with a non-negative viewport expansion, an element that is visible,
topmost and interactive but outside the expanded viewport is recorded in
the snapshot with `isInteractive = true` yet gets no `highlightIndex`, no
marker attribute and no locator, and `getSelectorMap` — which only admits
nodes with a numeric `highlightIndex` — omits every such node. -/
theorem out_of_viewport_interactive_unaddressable
    (vpExp : Int) (tag : String) (attrs : List (String × String))
    (scroll : Option ScrollData) (children : DomForest)
    (hvp : 0 ≤ vpExp) (htag : tag ∉ skipTags) :
    ∃ id d,
      (getFlatTree vpExp
        (DomInput.elem tag attrs true true false true scroll children)).map.getLast?
          = some (id, DomNode.elemNode d) ∧
      d.isInteractive = true ∧ d.highlightIndex = none ∧ d.marker = none ∧
      d.locator = none ∧
      (∀ q ∈ getSelectorMap (getFlatTree vpExp
          (DomInput.elem tag attrs true true false true scroll children)),
        q.2.highlightIndex = some q.1) ∧
      d ∉ (getSelectorMap (getFlatTree vpExp
        (DomInput.elem tag attrs true true false true scroll children))).map Prod.snd := by
  have hne : ¬(vpExp = -1) := by omega
  have hassign : assignFlag vpExp true true false true = false := by
    simp [assignFlag, interFlag, isTopFlag, inVpFlag, hne]
  have hinter : interFlag vpExp true true true = true := by
    simp [interFlag, isTopFlag]
  have hb : (buildNode vpExp (DomInput.elem tag attrs true true false true scroll children)
        initBuildState).2.map
      = (buildKids vpExp children initBuildState).2.map ++
        [(toString (buildKids vpExp children initBuildState).2.idCur,
          DomNode.elemNode
            { tagName := tag, attributes := [],
              children := (buildKids vpExp children initBuildState).1,
              isVisible := true, isTopElement := isTopFlag vpExp true true,
              isInViewport := inVpFlag vpExp true false,
              isInteractive := interFlag vpExp true true true,
              highlightIndex := none, marker := none, locator := none,
              scrollData := scroll })] := by
    simp [buildNode, htag, hassign]
  have hft : (getFlatTree vpExp
        (DomInput.elem tag attrs true true false true scroll children)).map
      = (buildNode vpExp (DomInput.elem tag attrs true true false true scroll children)
          initBuildState).2.map.map (fun p => (p.1, materializeNode p.2)) := rfl
  refine ⟨toString (buildKids vpExp children initBuildState).2.idCur,
    { tagName := tag, attributes := [],
      children := (buildKids vpExp children initBuildState).1,
      isVisible := true, isTopElement := isTopFlag vpExp true true,
      isInViewport := inVpFlag vpExp true false,
      isInteractive := interFlag vpExp true true true,
      highlightIndex := none, marker := none, locator := none,
      scrollData := scroll }, ?_, hinter, rfl, rfl, rfl, ?_, ?_⟩
  · rw [hft, hb, List.map_append]
    simp [materializeNode]
  · intro q hq
    exact (mem_getSelectorMap _ q hq).1
  · intro hmem
    obtain ⟨q, hq, hsnd⟩ := List.mem_map.mp hmem
    have h1 := (mem_getSelectorMap _ q hq).1
    rw [hsnd] at h1
    exact Option.noConfusion h1

/-- Witness for C9 at a concrete out-of-viewport button and expansion 0. -/
theorem out_of_viewport_interactive_unaddressable_witness :
    ∃ id d,
      (getFlatTree 0
        (DomInput.elem "button" [] true true false true none DomForest.nil)).map.getLast?
          = some (id, DomNode.elemNode d) ∧
      d.isInteractive = true ∧ d.highlightIndex = none ∧ d.marker = none ∧
      d.locator = none ∧
      (∀ q ∈ getSelectorMap (getFlatTree 0
          (DomInput.elem "button" [] true true false true none DomForest.nil)),
        q.2.highlightIndex = some q.1) ∧
      d ∉ (getSelectorMap (getFlatTree 0
        (DomInput.elem "button" [] true true false true none DomForest.nil))).map Prod.snd :=
  out_of_viewport_interactive_unaddressable 0 "button" [] none DomForest.nil
    (by norm_num) (by decide)

/-! ### Serializer lemmas (C4) -/

mutual
/-- Erasing the path tags of `processT` gives back `processNode`. -/
theorem processNode_eq_processT (ia : List String) (n : TreeNode)
    (ancs : List TreeNode) (depth : Nat) (p : List Nat) :
    processNode ia n ancs depth = (processT ia n ancs depth p).map renderPLine := by
  cases n with
  | text t v =>
    simp only [processNode, processT]
    by_cases hpar : hasParentWithHighlightIndex ancs
    · simp [hpar]
    · simp only [if_neg hpar]
      rcases hh : ancs.head? with _ | a
      · simp
      · cases a with
        | text t2 v2 => simp
        | elem tag attrs vis inter top isNew hIdx scroll kids =>
          by_cases hvt : vis && top
          · simp [hvt, renderPLine]
          · simp [hvt]
  | elem tag attrs vis inter top isNew hIdx scroll kids =>
    cases hIdx with
    | some i =>
      simp only [processNode, processT, List.map_cons]
      rw [processForest_eq_processTF ia kids
        (TreeNode.elem tag attrs vis inter top isNew (some i) scroll kids :: ancs)
        (depth + 1) p 0]
      rfl
    | none =>
      simp only [processNode, processT]
      exact processForest_eq_processTF ia kids
        (TreeNode.elem tag attrs vis inter top isNew none scroll kids :: ancs) depth p 0

/-- Erasing the path tags of `processTF` gives back `processForest`. -/
theorem processForest_eq_processTF (ia : List String) (l : TreeForest)
    (ancs : List TreeNode) (depth : Nat) (p : List Nat) (j : Nat) :
    processForest ia l ancs depth = (processTF ia l ancs depth p j).map renderPLine := by
  cases l with
  | nil => rfl
  | cons c rest =>
    simp only [processForest, processTF, List.map_append]
    rw [processNode_eq_processT ia c ancs depth (p ++ [j]),
      processForest_eq_processTF ia rest ancs depth p (j + 1)]
end

mutual
/-- Dropping the path tags of `collectTP` gives back `collectText`'s
parts (at the unlimited depth the source always uses). -/
theorem collectParts_eq_collectTP (n : TreeNode) (depth : Int) (isRoot : Bool) :
    collectParts (-1) n depth isRoot = (collectTP n isRoot).map Prod.snd := by
  cases n with
  | text t v =>
    by_cases ht : t ≠ "" <;> simp [collectParts, collectTP, ht]
  | elem tag attrs vis inter top isNew hIdx scroll kids =>
    by_cases hskip : ¬ isRoot ∧ hIdx.isSome
    · simp [collectParts, collectTP, hskip]
    · simp only [collectParts, collectTP, if_neg hskip]
      rw [if_neg (show ¬((-1 : Int) ≠ -1 ∧ (-1 : Int) < depth) from fun h => h.1 rfl)]
      exact collectPartsF_eq_collectTPF kids (depth + 1) 0

/-- Forest version of `collectParts_eq_collectTP`. -/
theorem collectPartsF_eq_collectTPF (l : TreeForest) (depth : Int) (j : Nat) :
    collectPartsF (-1) l depth = (collectTPF l j).map Prod.snd := by
  cases l with
  | nil => rfl
  | cons c rest =>
    simp only [collectPartsF, collectTPF, List.map_append, List.map_map]
    rw [collectParts_eq_collectTP c depth false,
      collectPartsF_eq_collectTPF rest depth (j + 1)]
    rfl
end

/-- Path lookup decomposes over path concatenation. -/
theorem nodeAt_append (p : List Nat) :
    ∀ (root : TreeNode) (q : List Nat),
      nodeAt root (p ++ q) = (nodeAt root p).bind (fun m => nodeAt m q) := by
  induction p with
  | nil => intro root q; simp [nodeAt]
  | cons j rest ih =>
    intro root q
    cases root with
    | text t v => simp [nodeAt]
    | elem tag attrs vis inter top isNew hIdx scroll kids =>
      simp only [List.cons_append, nodeAt]
      rcases forestGet kids j with _ | c
      · simp
      · exact ih c q

/-- `isIndexedAt` through an intermediate node. -/
theorem isIndexedAt_append (root na : TreeNode) (p q : List Nat)
    (h : nodeAt root p = some na) : isIndexedAt root (p ++ q) = isIndexedAt na q := by
  rw [isIndexedAt, nodeAt_append p root q, h]
  rfl

/-- A path reaching a text node is never indexed. -/
theorem isIndexedAt_text (root : TreeNode) (p : List Nat) (t : String)
    (h : textAt root p = some t) : isIndexedAt root p = false := by
  rw [isIndexedAt]
  rw [textAt] at h
  rcases hn : nodeAt root p with _ | m
  · rfl
  · rw [hn] at h
    cases m with
    | text t2 v => rfl
    | elem tag attrs vis inter top isNew hIdx scroll kids => exact absurd h (by simp)

mutual
/-- Characterization of the collected texts: exactly the non-empty text
nodes reachable without crossing another indexed element strictly below
the collection root. -/
theorem mem_collectTP (n : TreeNode) (isRoot : Bool) (rel : List Nat) (t : String) :
    (rel, t) ∈ collectTP n isRoot ↔
      ((isRoot = true ∨ isIndexedNode n = false) ∧ CollectOK n rel t) := by
  cases n with
  | text t2 v =>
    constructor
    · intro hm
      simp only [collectTP] at hm
      by_cases ht2 : t2 ≠ ""
      · rw [if_pos ht2] at hm
        simp only [List.mem_singleton, Prod.mk.injEq] at hm
        obtain ⟨hrel, hteq⟩ := hm
        subst hrel
        subst hteq
        refine ⟨Or.inr rfl, rfl, ht2, ?_⟩
        intro q s hq hqne
        exact absurd (List.append_eq_nil.mp hq.symm).1 hqne
      · rw [if_neg ht2] at hm
        simp at hm
    · rintro ⟨hroot, htext, hne, hcond⟩
      cases rel with
      | nil =>
        have ht2 : t2 = t := by
          rw [textAt] at htext
          simp only [nodeAt] at htext
          exact Option.some.inj htext
        subst ht2
        rw [collectTP, if_pos hne]
        simp
      | cons j q =>
        exfalso
        rw [textAt] at htext
        simp only [nodeAt] at htext
        exact Option.noConfusion htext
  | elem tag attrs vis inter top isNew hIdx scroll kids =>
    have hstep : ∀ (j : Nat) (q : List Nat) (c : TreeNode), forestGet kids j = some c →
        nodeAt (TreeNode.elem tag attrs vis inter top isNew hIdx scroll kids) (j :: q)
          = nodeAt c q := by
      intro j q c hget
      simp only [nodeAt, hget]
    by_cases hskip : ¬ isRoot = true ∧ hIdx.isSome = true
    · have hm : collectTP (TreeNode.elem tag attrs vis inter top isNew hIdx scroll kids) isRoot
          = [] := by
        simp [collectTP, hskip.1, hskip.2]
      rw [hm]
      obtain ⟨i, hi⟩ := Option.isSome_iff_exists.mp hskip.2
      have hind : isIndexedNode
          (TreeNode.elem tag attrs vis inter top isNew hIdx scroll kids) = true := by
        subst hi
        rfl
      constructor
      · intro h
        simp at h
      · rintro ⟨hroot | hroot, _⟩
        · exact absurd hroot hskip.1
        · rw [hind] at hroot
          exact Bool.noConfusion hroot
    · have hm : collectTP (TreeNode.elem tag attrs vis inter top isNew hIdx scroll kids) isRoot
          = collectTPF kids 0 := by
        rw [collectTP, if_neg hskip]
      have hdisj : isRoot = true ∨ isIndexedNode
          (TreeNode.elem tag attrs vis inter top isNew hIdx scroll kids) = false := by
        by_cases hr : isRoot = true
        · exact Or.inl hr
        · refine Or.inr ?_
          rcases hIdx with _ | i
          · rfl
          · exact absurd ⟨hr, rfl⟩ hskip
      rw [hm, mem_collectTPF kids 0 rel t]
      constructor
      · rintro ⟨j, q, c, hrel, hget, hnind, htext, hne, hcond⟩
        rw [Nat.zero_add] at hrel
        subst hrel
        refine ⟨hdisj, ?_, hne, ?_⟩
        · rw [textAt, hstep j q c hget, ← textAt]
          exact htext
        · intro q2 s hq2 hq2ne
          cases q2 with
          | nil => exact absurd rfl hq2ne
          | cons x q3 =>
            rw [List.cons_append] at hq2
            injection hq2 with hx hq3
            subst hx
            have hstep2 : isIndexedAt
                (TreeNode.elem tag attrs vis inter top isNew hIdx scroll kids) (j :: q3)
                  = isIndexedAt c q3 := by
              rw [isIndexedAt, isIndexedAt, hstep j q3 c hget]
            rw [hstep2]
            cases q3 with
            | nil =>
              rw [isIndexedAt]
              simp only [nodeAt]
              exact hnind
            | cons y q4 =>
              exact hcond (y :: q4) s hq3 (by simp)
      · rintro ⟨_, htext, hne, hcond⟩
        cases rel with
        | nil =>
          exfalso
          rw [textAt] at htext
          simp only [nodeAt] at htext
          exact Option.noConfusion htext
        | cons j q =>
          rcases hget : forestGet kids j with _ | c
          · exfalso
            rw [textAt] at htext
            simp only [nodeAt, hget] at htext
            exact Option.noConfusion htext
          · refine ⟨j, q, c, by rw [Nat.zero_add], hget, ?_, ?_, hne, ?_⟩
            · have h1 := hcond [j] q rfl (by simp)
              rw [isIndexedAt, hstep j [] c hget] at h1
              simp only [nodeAt] at h1
              exact h1
            · rw [textAt] at htext
              rw [hstep j q c hget] at htext
              rw [← textAt] at htext
              exact htext
            · intro q2 s hq2 hq2ne
              have h2 := hcond (j :: q2) s (by rw [hq2, List.cons_append]) (by simp)
              rw [isIndexedAt, hstep j q2 c hget, ← isIndexedAt] at h2
              exact h2

/-- Forest version of `mem_collectTP` with the running child position. -/
theorem mem_collectTPF (l : TreeForest) (j0 : Nat) (rel : List Nat) (t : String) :
    (rel, t) ∈ collectTPF l j0 ↔
      ∃ j q c, rel = (j0 + j) :: q ∧ forestGet l j = some c ∧
        isIndexedNode c = false ∧ CollectOK c q t := by
  cases l with
  | nil =>
    constructor
    · intro h
      simp [collectTPF] at h
    · rintro ⟨j, q, c, _, hget, _⟩
      rw [show forestGet TreeForest.nil j = none from by cases j <;> rfl] at hget
      exact Option.noConfusion hget
  | cons c rest =>
    simp only [collectTPF, List.mem_append]
    constructor
    · rintro (hm | hm)
      · obtain ⟨⟨q2, t2⟩, hq2, he⟩ := List.mem_map.mp hm
        simp only [Prod.mk.injEq] at he
        obtain ⟨hrel, hteq⟩ := he
        rw [hteq] at hq2
        obtain ⟨hdis, hC⟩ := (mem_collectTP c false q2 t).mp hq2
        have hnind : isIndexedNode c = false := by
          rcases hdis with h | h
          · exact Bool.noConfusion h
          · exact h
        exact ⟨0, q2, c, by rw [← hrel, Nat.add_zero], rfl, hnind, hC⟩
      · obtain ⟨j, q2, c2, hrel, hget, hnind, hC⟩ := (mem_collectTPF rest (j0 + 1) rel t).mp hm
        refine ⟨j + 1, q2, c2, ?_, hget, hnind, hC⟩
        rw [hrel]
        congr 1
        omega
    · rintro ⟨j, q2, c2, hrel, hget, hnind, hC⟩
      cases j with
      | zero =>
        have hc : c2 = c := by
          simp only [forestGet] at hget
          exact (Option.some.inj hget).symm
        subst hc
        left
        refine List.mem_map.mpr ⟨(q2, t), ?_, ?_⟩
        · exact (mem_collectTP c2 false q2 t).mpr ⟨Or.inr hnind, hC⟩
        · rw [hrel]
          simp
      | succ j =>
        right
        refine (mem_collectTPF rest (j0 + 1) rel t).mpr ⟨j, q2, c2, ?_, hget, hnind, hC⟩
        rw [hrel]
        congr 1
        omega
end

/-- The ancestor-chain test through one more ancestor. -/
theorem hasParent_cons (n : TreeNode) (ancs : List TreeNode) :
    hasParentWithHighlightIndex (n :: ancs) =
      (isIndexedNode n || hasParentWithHighlightIndex ancs) := by
  simp [hasParentWithHighlightIndex, List.any_cons]

mutual
/-- Once an indexed ancestor is on the chain, no bare text line is ever
emitted below it. -/
theorem no_bare_processT (ia : List String) (n : TreeNode) (ancs : List TreeNode)
    (depth : Nat) (p : List Nat)
    (h : hasParentWithHighlightIndex ancs = true) :
    ∀ d t pa, PLine.bare d t pa ∉ processT ia n ancs depth p := by
  intro d t pa hmem
  cases n with
  | text t2 v =>
    simp [processT, h] at hmem
  | elem tag attrs vis inter top isNew hIdx scroll kids =>
    cases hIdx with
    | some i =>
      simp only [processT, List.mem_cons] at hmem
      rcases hmem with heq | hmem2
      · exact PLine.noConfusion heq
      · exact no_bare_processTF ia kids
          (TreeNode.elem tag attrs vis inter top isNew (some i) scroll kids :: ancs)
          (depth + 1) p 0
          (by rw [hasParent_cons]; simp [isIndexedNode]) d t pa hmem2
    | none =>
      simp only [processT] at hmem
      exact no_bare_processTF ia kids
        (TreeNode.elem tag attrs vis inter top isNew none scroll kids :: ancs)
        depth p 0 (by rw [hasParent_cons, h]; simp) d t pa hmem

/-- Forest version of `no_bare_processT`. -/
theorem no_bare_processTF (ia : List String) (l : TreeForest) (ancs : List TreeNode)
    (depth : Nat) (p : List Nat) (j : Nat)
    (h : hasParentWithHighlightIndex ancs = true) :
    ∀ d t pa, PLine.bare d t pa ∉ processTF ia l ancs depth p j := by
  intro d t pa hmem
  cases l with
  | nil =>
    simp [processTF] at hmem
  | cons c rest =>
    simp only [processTF, List.mem_append] at hmem
    rcases hmem with h1 | h2
    · exact no_bare_processT ia c ancs depth (p ++ [j]) h d t pa h1
    · exact no_bare_processTF ia rest ancs depth p (j + 1) h d t pa h2
end

/-- `parentVisTop` through the first step of the path. -/
theorem parentVisTop_step (tag : String) (attrs : List (String × String))
    (vis inter top isNew : Bool) (hIdx : Option Nat) (scroll : Option ScrollData)
    (kids : TreeForest) (ancs : List TreeNode) (j : Nat) (rel : List Nat)
    (c : TreeNode) (hget : forestGet kids j = some c) :
    parentVisTop (TreeNode.elem tag attrs vis inter top isNew hIdx scroll kids) ancs
        (j :: rel) ↔
      parentVisTop c
        (TreeNode.elem tag attrs vis inter top isNew hIdx scroll kids :: ancs) rel := by
  cases rel with
  | nil =>
    constructor
    · intro h
      exact h
    · intro h
      exact h
  | cons r rest =>
    have hstep : nodeAt (TreeNode.elem tag attrs vis inter top isNew hIdx scroll kids)
        (j :: (r :: rest).dropLast) = nodeAt c ((r :: rest).dropLast) := by
      simp only [nodeAt, hget]
    simp only [parentVisTop]
    rw [List.dropLast_cons_of_ne_nil (show r :: rest ≠ [] from by simp), hstep]

/-- `BareOK` through the first step of the path at a non-indexed element. -/
theorem BareOK_step (tag : String) (attrs : List (String × String))
    (vis inter top isNew : Bool) (scroll : Option ScrollData) (kids : TreeForest)
    (ancs : List TreeNode) (j : Nat) (rel : List Nat) (t : String) :
    BareOK (TreeNode.elem tag attrs vis inter top isNew none scroll kids) ancs
        (j :: rel) t ↔
      ∃ c, forestGet kids j = some c ∧
        BareOK c (TreeNode.elem tag attrs vis inter top isNew none scroll kids :: ancs)
          rel t := by
  have hpc : hasParentWithHighlightIndex
      (TreeNode.elem tag attrs vis inter top isNew none scroll kids :: ancs)
        = hasParentWithHighlightIndex ancs := by
    rw [hasParent_cons]
    simp [isIndexedNode]
  constructor
  · rintro ⟨hpar, htext, hpre, hpv⟩
    rcases hget : forestGet kids j with _ | c
    · exfalso
      rw [textAt] at htext
      simp only [nodeAt, hget] at htext
      exact Option.noConfusion htext
    · have hstep : ∀ q : List Nat,
          nodeAt (TreeNode.elem tag attrs vis inter top isNew none scroll kids) (j :: q)
            = nodeAt c q := by
        intro q
        simp only [nodeAt, hget]
      refine ⟨c, rfl, ?_, ?_, ?_, ?_⟩
      · rw [hpc]
        exact hpar
      · rw [textAt, hstep rel, ← textAt] at htext
        exact htext
      · intro q s hq hqne
        have h2 := hpre (j :: q) s (by rw [hq, List.cons_append]) (by simp [hqne])
        rw [isIndexedAt, hstep q, ← isIndexedAt] at h2
        exact h2
      · exact (parentVisTop_step tag attrs vis inter top isNew none scroll kids
          ancs j rel c hget).mp hpv
  · rintro ⟨c, hget, hpar, htext, hpre, hpv⟩
    have hstep : ∀ q : List Nat,
        nodeAt (TreeNode.elem tag attrs vis inter top isNew none scroll kids) (j :: q)
          = nodeAt c q := by
      intro q
      simp only [nodeAt, hget]
    refine ⟨?_, ?_, ?_, ?_⟩
    · rw [hpc] at hpar
      exact hpar
    · rw [textAt, hstep rel, ← textAt]
      exact htext
    · intro q s hq hqne
      cases q with
      | nil =>
        simp [isIndexedAt, nodeAt, isIndexedNode]
      | cons x q2 =>
        rw [List.cons_append] at hq
        injection hq with hx hq2
        subst hx
        have hq2ne : q2 ≠ rel := fun he => hqne (by rw [he])
        have h2 := hpre q2 s hq2 hq2ne
        rw [isIndexedAt, hstep q2, ← isIndexedAt]
        exact h2
    · exact (parentVisTop_step tag attrs vis inter top isNew none scroll kids
        ancs j rel c hget).mpr hpv

mutual
/-- Characterization of the bare text lines emitted by the serializer:
exactly the text nodes reached without an indexed ancestor, whose parent
element is visible and topmost. -/
theorem mem_bare_processT (ia : List String) (n : TreeNode) (ancs : List TreeNode)
    (depth : Nat) (p pa : List Nat) (t : String) :
    (∃ d, PLine.bare d t pa ∈ processT ia n ancs depth p) ↔
      ∃ rel, pa = p ++ rel ∧ BareOK n ancs rel t := by
  cases n with
  | text t2 v =>
    cases hpar : hasParentWithHighlightIndex ancs with
    | true =>
      constructor
      · rintro ⟨d, hd⟩
        simp [processT, hpar] at hd
      · rintro ⟨rel, hpa, hB, _⟩
        rw [hpar] at hB
        exact Bool.noConfusion hB
    | false =>
      have hrel0 : ∀ rel, textAt (TreeNode.text t2 v) rel = some t → rel = [] ∧ t = t2 := by
        intro rel htext
        cases rel with
        | nil =>
          rw [textAt] at htext
          simp only [nodeAt] at htext
          exact ⟨rfl, (Option.some.inj htext).symm⟩
        | cons j q =>
          rw [textAt] at htext
          simp only [nodeAt] at htext
          exact absurd htext (by simp)
      rcases hh : ancs.head? with _ | a
      · constructor
        · rintro ⟨d, hd⟩
          simp [processT, hpar, hh] at hd
        · rintro ⟨rel, hpa, _, htext, _, hpv⟩
          obtain ⟨hr, ht⟩ := hrel0 rel htext
          subst hr
          simp only [parentVisTop, hh] at hpv
      · cases a with
        | text t3 v3 =>
          constructor
          · rintro ⟨d, hd⟩
            simp [processT, hpar, hh] at hd
          · rintro ⟨rel, hpa, _, htext, _, hpv⟩
            obtain ⟨hr, ht⟩ := hrel0 rel htext
            subst hr
            simp only [parentVisTop, hh] at hpv
        | elem tag2 attrs2 pvis pint ptop pnew pidx pscr pkids =>
          cases hvt : (pvis && ptop) with
          | false =>
            constructor
            · rintro ⟨d, hd⟩
              simp [processT, hpar, hh, hvt] at hd
            · rintro ⟨rel, hpa, _, htext, _, hpv⟩
              obtain ⟨hr, ht⟩ := hrel0 rel htext
              subst hr
              simp only [parentVisTop, hh] at hpv
              rw [hpv.1, hpv.2] at hvt
              exact Bool.noConfusion hvt
          | true =>
            have hL : processT ia (TreeNode.text t2 v) ancs depth p
                = [PLine.bare depth t2 p] := by
              simp [processT, hpar, hh, hvt]
            constructor
            · rintro ⟨d, hd⟩
              rw [hL] at hd
              simp only [List.mem_singleton, PLine.bare.injEq] at hd
              obtain ⟨hd1, hd2, hd3⟩ := hd
              subst hd2
              subst hd3
              refine ⟨[], by simp, hpar, rfl, ?_, ?_⟩
              · intro q s hq hqne
                exact absurd (List.append_eq_nil.mp hq.symm).1 hqne
              · simp only [parentVisTop, hh]
                simp only [Bool.and_eq_true] at hvt
                exact hvt
            · rintro ⟨rel, hpa, _, htext, _, _⟩
              obtain ⟨hr, ht⟩ := hrel0 rel htext
              subst hr
              subst ht
              rw [hL]
              refine ⟨depth, ?_⟩
              simp [hpa]
  | elem tag attrs vis inter top isNew hIdx scroll kids =>
    cases hIdx with
    | some i =>
      constructor
      · rintro ⟨d, hd⟩
        simp only [processT, List.mem_cons] at hd
        rcases hd with heq | hd2
        · exact PLine.noConfusion heq
        · exact absurd hd2 (no_bare_processTF ia kids
            (TreeNode.elem tag attrs vis inter top isNew (some i) scroll kids :: ancs)
            (depth + 1) p 0
            (by rw [hasParent_cons]; simp [isIndexedNode]) d t pa)
      · rintro ⟨rel, hpa, _, htext, hpre, _⟩
        cases rel with
        | nil =>
          rw [textAt] at htext
          simp only [nodeAt] at htext
          exact absurd htext (by simp)
        | cons r rest =>
          have h0 := hpre [] (r :: rest) rfl (by simp)
          simp [isIndexedAt, nodeAt, isIndexedNode] at h0
    | none =>
      have hL : processT ia (TreeNode.elem tag attrs vis inter top isNew none scroll kids)
          ancs depth p
            = processTF ia kids
                (TreeNode.elem tag attrs vis inter top isNew none scroll kids :: ancs)
                depth p 0 := by
        simp only [processT]
      rw [hL, mem_bare_processTF ia kids
        (TreeNode.elem tag attrs vis inter top isNew none scroll kids :: ancs)
        depth p pa 0 t]
      constructor
      · rintro ⟨j, rel, c, hpa, hget, hB⟩
        refine ⟨j :: rel, ?_, ?_⟩
        · rw [hpa, Nat.zero_add]
        · exact (BareOK_step tag attrs vis inter top isNew scroll kids ancs j rel t).mpr
            ⟨c, hget, hB⟩
      · rintro ⟨rel2, hpa, hB⟩
        cases rel2 with
        | nil =>
          obtain ⟨_, htext, _, _⟩ := hB
          rw [textAt] at htext
          simp only [nodeAt] at htext
          exact absurd htext (by simp)
        | cons j rel =>
          obtain ⟨c, hget, hBc⟩ :=
            (BareOK_step tag attrs vis inter top isNew scroll kids ancs j rel t).mp hB
          exact ⟨j, rel, c, by rw [hpa, Nat.zero_add], hget, hBc⟩

/-- Forest version of `mem_bare_processT` with the running child
position. -/
theorem mem_bare_processTF (ia : List String) (l : TreeForest) (ancs : List TreeNode)
    (depth : Nat) (p pa : List Nat) (j0 : Nat) (t : String) :
    (∃ d, PLine.bare d t pa ∈ processTF ia l ancs depth p j0) ↔
      ∃ j rel c, pa = p ++ (j0 + j) :: rel ∧ forestGet l j = some c ∧
        BareOK c ancs rel t := by
  cases l with
  | nil =>
    constructor
    · rintro ⟨d, hd⟩
      simp [processTF] at hd
    · rintro ⟨j, rel, c, _, hget, _⟩
      rw [show forestGet TreeForest.nil j = none from by cases j <;> rfl] at hget
      exact Option.noConfusion hget
  | cons c rest =>
    constructor
    · rintro ⟨d, hd⟩
      simp only [processTF, List.mem_append] at hd
      rcases hd with h1 | h2
      · obtain ⟨rel, hpa, hB⟩ :=
          (mem_bare_processT ia c ancs depth (p ++ [j0]) pa t).mp ⟨d, h1⟩
        refine ⟨0, rel, c, ?_, rfl, hB⟩
        rw [hpa, List.append_assoc]
        simp
      · obtain ⟨j, rel, c2, hpa, hget, hB⟩ :=
          (mem_bare_processTF ia rest ancs depth p pa (j0 + 1) t).mp ⟨d, h2⟩
        refine ⟨j + 1, rel, c2, ?_, hget, hB⟩
        rw [hpa, show j0 + 1 + j = j0 + (j + 1) from by omega]
    · rintro ⟨j, rel, c2, hpa, hget, hB⟩
      cases j with
      | zero =>
        have hc : c2 = c := by
          simp only [forestGet] at hget
          exact (Option.some.inj hget).symm
        subst hc
        obtain ⟨d, hd⟩ := (mem_bare_processT ia c2 ancs depth (p ++ [j0]) pa t).mpr
          ⟨rel, by rw [hpa]; simp, hB⟩
        refine ⟨d, ?_⟩
        simp only [processTF, List.mem_append]
        exact Or.inl hd
      | succ j =>
        obtain ⟨d, hd⟩ := (mem_bare_processTF ia rest ancs depth p pa (j0 + 1) t).mpr
          ⟨j, rel, c2, by rw [hpa, show j0 + (j + 1) = j0 + 1 + j from by omega], hget, hB⟩
        refine ⟨d, ?_⟩
        simp only [processTF, List.mem_append]
        exact Or.inr hd
end

/-- C4: in the serialized pseudo-HTML, a text node's text is emitted as a
bare line exactly when no ancestor on its chain carries a highlight index
and its parent element is visible and topmost; when the text node has an
indexed ancestor it never appears as a bare line, its text is collected
into the nearest indexed ancestor's element line, the collection stops at
any indexed descendant (so no farther indexed ancestor collects it). -/
theorem text_emission_and_folding (ia : List String) (root na : TreeNode)
    (p qa r0 : List Nat) (t : String)
    (htext : textAt root p = some t) (hne : t ≠ "")
    (hsplit : p = qa ++ r0) (hr0 : r0 ≠ [])
    (hqa : isIndexedAt root qa = true)
    (hna : nodeAt root qa = some na)
    (hnear : ∀ q s, p = (qa ++ q) ++ s → q ≠ [] → qa ++ q ≠ p →
      isIndexedAt root (qa ++ q) = false) :
    serializeTree ia root
        = String.intercalate "\n" ((processT ia root [] 0 []).map renderPLine) ∧
    (∀ p2 t2, (∃ d, PLine.bare d t2 p2 ∈ processT ia root [] 0 []) ↔
      BareOK root [] p2 t2) ∧
    (∀ d, PLine.bare d t p ∉ processT ia root [] 0 []) ∧
    (r0, t) ∈ collectTP na true ∧
    getAllTextTillNextClickableElement na (-1)
        = jsTrim (String.intercalate "\n" ((collectTP na true).map Prod.snd)) ∧
    (∀ rel2 t2, (rel2, t2) ∈ collectTP na true ↔ CollectOK na rel2 t2) ∧
    (∀ q2 r2 c2, p = q2 ++ r2 → q2 ≠ qa → q2 ≠ p → isIndexedAt root q2 = true →
      nodeAt root q2 = some c2 → (r2, t) ∉ collectTP c2 true) ∧
    (∀ tg at2 v2 int2 tp2 nw2 i2 sc2 kd2,
      na = TreeNode.elem tg at2 v2 int2 tp2 nw2 (some i2) sc2 kd2 →
      ∀ ancs2 d2, processNode ia na ancs2 d2
        = renderElemLine ia d2 i2 tg at2 nw2 sc2
            (getAllTextTillNextClickableElement na (-1)) ::
          processForest ia kd2 (na :: ancs2) (d2 + 1)) := by
  have hqnep : qa ≠ p := by
    intro he
    rw [← he] at hsplit
    have hlen := congrArg List.length hsplit
    simp at hlen
    exact hr0 hlen
  refine ⟨?_, ?_, ?_, ?_, ?_, ?_, ?_, ?_⟩
  · simp only [serializeTree]
    rw [processNode_eq_processT ia root [] 0 []]
  · intro p2 t2
    rw [mem_bare_processT ia root [] 0 [] p2 t2]
    constructor
    · rintro ⟨rel, hpe, hB⟩
      rw [List.nil_append] at hpe
      rw [hpe]
      exact hB
    · intro hB
      exact ⟨p2, by simp, hB⟩
  · intro d hd
    obtain ⟨rel, hpe, hB⟩ := (mem_bare_processT ia root [] 0 [] p t).mp ⟨d, hd⟩
    rw [List.nil_append] at hpe
    subst hpe
    obtain ⟨_, _, hpre2, _⟩ := hB
    have hfa := hpre2 qa r0 hsplit hqnep
    rw [hfa] at hqa
    exact Bool.noConfusion hqa
  · refine (mem_collectTP na true r0 t).mpr ⟨Or.inl rfl, ?_, hne, ?_⟩
    · have h4 : nodeAt root p = nodeAt na r0 := by
        rw [hsplit, nodeAt_append qa root r0, hna, Option.some_bind]
      rw [textAt, h4, ← textAt] at htext
      exact htext
    · intro q s hq hqnil
      by_cases hqp : qa ++ q = p
      · rw [← isIndexedAt_append root na qa q hna, hqp]
        exact isIndexedAt_text root p t htext
      · rw [← isIndexedAt_append root na qa q hna]
        exact hnear q s (by rw [hsplit, hq, List.append_assoc]) hqnil hqp
  · rw [getAllTextTillNextClickableElement, collectParts_eq_collectTP na 0 true]
  · intro rel2 t2
    rw [mem_collectTP na true rel2 t2]
    constructor
    · rintro ⟨_, hC⟩
      exact hC
    · intro hC
      exact ⟨Or.inl rfl, hC⟩
  · intro q2 r2 c2 hq2 hqne hqp hqidx hnc hmem
    obtain ⟨_, htext2, hne2, hcond2⟩ := (mem_collectTP c2 true r2 t).mp hmem
    have hp3 : q2 <+: p := ⟨r2, hq2.symm⟩
    have hp4 : qa <+: p := ⟨r0, hsplit.symm⟩
    rcases List.prefix_or_prefix_of_prefix hp4 hp3 with hab | hba
    · obtain ⟨m, hm⟩ := hab
      have hmne : m ≠ [] := by
        intro he
        rw [he, List.append_nil] at hm
        exact hqne hm.symm
      have hfa := hnear m r2 (by rw [hm]; exact hq2) hmne (by rw [hm]; exact hqp)
      rw [hm] at hfa
      rw [hfa] at hqidx
      exact Bool.noConfusion hqidx
    · obtain ⟨m, hm⟩ := hba
      have hmne : m ≠ [] := by
        intro he
        rw [he, List.append_nil] at hm
        exact hqne hm
      have hr2 : r2 = m ++ r0 := by
        have h2 : q2 ++ r2 = (q2 ++ m) ++ r0 := by
          rw [hm, ← hsplit, ← hq2]
        exact List.append_cancel_left (by rw [h2, List.append_assoc])
      have hidx : isIndexedAt c2 m = true := by
        rw [← isIndexedAt_append root c2 q2 m hnc, hm]
        exact hqa
      have hfa := hcond2 m r0 hr2 hmne
      rw [hfa] at hidx
      exact Bool.noConfusion hidx
  · intro tg at2 v2 int2 tp2 nw2 i2 sc2 kd2 heq ancs2 d2
    subst heq
    rfl

/-- Witness for C4 on the sample tree: the text "world" below the indexed
button is collected into the button's text and never emitted as a bare
line. -/
theorem text_emission_and_folding_witness :
    ([0], "world") ∈ collectTP sampleBtn true ∧
    ∀ d, PLine.bare d "world" [1, 0] ∉ processT [] sampleRoot [] 0 [] :=
  have h := text_emission_and_folding [] sampleRoot sampleBtn [1, 0] [1] [0] "world"
    rfl (by decide) rfl (by decide) rfl rfl
    (by
      intro q s h1 h2 h3
      exfalso
      rcases q with _ | ⟨a, q1⟩
      · exact h2 rfl
      · rcases q1 with _ | ⟨b, q2⟩
        · simp at h1
          obtain ⟨ha, hs⟩ := h1
          subst ha
          exact h3 rfl
        · simp at h1)
  ⟨h.2.2.2.1, h.2.2.1⟩
